import Mathlib

/-!
Shallow embedding of `src/graph.rs` from the `advent_of_tools` repository:
the directed-graph builder `UniGraph::new` and the symmetrizing chain
compressor `BiGraph::compress`.

Modelling conventions:

* A Rust `HashMap` is modelled as an insertion-ordered association list
  (`List (key × value)`).  The operations that build these maps never create
  duplicate keys, so first-match lookup agrees with `HashMap` lookup; a run of
  the Rust code corresponds to some ordering of the association list, and the
  theorems below quantify over the list (hence over every iteration order)
  unless the claim is about one concrete scenario, in which case the canonical
  insertion order is used.
* Rust panics (`expect`, out-of-range `Vec` indexing, failing
  `Idx::try_from`) are modelled as `Except` errors / `Option.none`; a normal
  return is `.ok`.
* The caller-configurable bounded index type `Idx` is modelled as `Nat`
  together with an explicit bound `maxIdx`: `Idx::try_from(i)` succeeds
  exactly when `i ≤ maxIdx` (for `u8`, `maxIdx = 255`).
* The `loop { ... }` in `compress` is modelled by well-founded recursion on
  the number of adjacency keys (`loop`), plus a fuel-indexed variant
  (`loopFuel`) used to state the termination bound and to evaluate concrete
  scenarios.
-/

namespace AdventGraph

variable {VT ET CT : Type}

/-- Lookup of the first entry with the given key in an association list
(models `HashMap::get`; the maps built below never hold duplicate keys). -/
def findA {κ α : Type} [DecidableEq κ] : List (κ × α) → κ → Option α
  | [], _ => none
  | p :: r, k => if p.1 = k then some p.2 else findA r k

/-- Replace the value of the first entry with the given key (in-place update
through `HashMap::get_mut`). -/
def setList {κ α : Type} [DecidableEq κ] : List (κ × α) → κ → α → List (κ × α)
  | [], _, _ => []
  | p :: r, k, v => if p.1 = k then (k, v) :: r else p :: setList r k v

/-- Models `HashMap::get_mut` followed by an in-place update of the value;
`none` models the `expect` panic when the key is absent. -/
def updateList {κ α : Type} [DecidableEq κ] (m : List (κ × α)) (k : κ) (f : α → α) :
    Option (List (κ × α)) :=
  match findA m k with
  | none => none
  | some l => some (setList m k (f l))

/-- Models `HashMap::remove` (removes every entry with the key; identical to
removing the single entry because keys are never duplicated). -/
def removeKey {κ α : Type} [DecidableEq κ] : List (κ × α) → κ → List (κ × α)
  | [], _ => []
  | p :: r, k => if p.1 = k then removeKey r k else p :: removeKey r k

/-- Models `HashMap::insert` for the name-to-index map: a later insert for the
same key shadows the earlier one under first-match lookup. -/
def mapInsert {κ α : Type} (m : List (κ × α)) (k : κ) (v : α) : List (κ × α) :=
  (k, v) :: m

/-- An adjacency list entry `(destination index, cost, edge payload)`. -/
abbrev Edge (CT ET : Type) := Nat × CT × ET

/-- The adjacency index: vertex index to list of outgoing edges. -/
abbrev EdgeMap (CT ET : Type) := List (Nat × List (Edge CT ET))

/-- `UniGraph`: the graph with unidirectional edges (`vertices`, `edges`). -/
structure UniGraph (VT ET CT : Type) where
  vertices : List (String × VT)
  edges : EdgeMap CT ET

/-- `BiGraph`: the graph with bidirectional edges (`vertices`, `edges`). -/
structure BiGraph (VT ET CT : Type) where
  vertices : List (String × VT)
  edges : EdgeMap CT ET

/-- The `should_combine` callback of `BiGraph::compress`. -/
abbrev Combine (VT ET CT : Type) :=
  VT → VT → VT → ET → CT → ET → CT → Option (CT × ET)

/-- Fatal construction failures of `UniGraph::new`, by panic site:
`idxOverflow` for a failing `Idx::try_from`, `unknownDest` for
`expect("edge destination exists")`, `internalPanic` for the remaining
`expect`s that cannot fire on reachable states. -/
inductive BuildErr : Type
  | idxOverflow
  | unknownDest
  | internalPanic
deriving DecidableEq

/-- One arm of the symmetrization body: `entry(k).or_insert_with(Vec::new)`
followed by a push of `(dst, c, d)` guarded by "no existing entry with
destination `dst`". -/
def addEdgeIfAbsent (m : EdgeMap CT ET) (k dst : Nat) (c : CT) (d : ET) : EdgeMap CT ET :=
  match findA m k with
  | some l =>
    if l.any (fun e => decide (e.1 = dst)) then m
    else setList m k (l ++ [(dst, c, d)])
  | none => m ++ [(k, [(dst, c, d)])]

/-- Body of the symmetrization loop for one input edge `from_vertex → e`:
first the forward direction is added to `from_vertex`'s list, then the
reverse direction to the destination's list. -/
def symStep (m : EdgeMap CT ET) (f : Nat) (e : Edge CT ET) : EdgeMap CT ET :=
  addEdgeIfAbsent (addEdgeIfAbsent m f e.1 e.2.1 e.2.2) e.1 f e.2.1 e.2.2

/-- Inner symmetrization loop over one source vertex's old adjacency list. -/
def symAddList (f : Nat) : EdgeMap CT ET → List (Edge CT ET) → EdgeMap CT ET
  | m, [] => m
  | m, e :: r => symAddList f (symStep m f e) r

/-- Outer symmetrization loop over the input graph's adjacency index. -/
def symAll : EdgeMap CT ET → EdgeMap CT ET → EdgeMap CT ET
  | m, [] => m
  | m, (f, l) :: r => symAll (symAddList f m l) r

/-- Phase A of `compress`: "Add edges in both directions". -/
def symmetrize (es : EdgeMap CT ET) : EdgeMap CT ET := symAll [] es

/-- A selected elimination `(vertex1, vertex2, vertex3, cost, data)`. -/
abbrev Upd (CT ET : Type) := Nat × Nat × Nat × CT × ET

/-- One invocation of `should_combine`: the three vertex payload lookups
`graph.vertices[...]` panic (`.error`) when an index is out of range. -/
def tryPair (comb : Combine VT ET CT) (vs : List (String × VT)) (v1 v2 v3 : Nat)
    (d2 : ET) (c2 : CT) (d3 : ET) (c3 : CT) : Except Unit (Option (CT × ET)) :=
  match vs.get? v1, vs.get? v2, vs.get? v3 with
  | some p1, some p2, some p3 => .ok (comb p1.2 p2.2 p3.2 d2 c2 d3 c3)
  | _, _, _ => .error ()

/-- Inner candidate scan: for a fixed first edge `e2` of `v1`, walk the same
adjacency list looking for a second edge with a different destination that
`should_combine` accepts. -/
def scanInner (comb : Combine VT ET CT) (vs : List (String × VT)) (v1 : Nat)
    (e2 : Edge CT ET) : List (Edge CT ET) → Except Unit (Option (Upd CT ET))
  | [] => .ok none
  | e3 :: r =>
    if e3.1 = e2.1 then scanInner comb vs v1 e2 r
    else
      match tryPair comb vs v1 e2.1 e3.1 e2.2.2 e2.2.1 e3.2.2 e3.2.1 with
      | .error _ => .error ()
      | .ok none => scanInner comb vs v1 e2 r
      | .ok (some (c, d)) => .ok (some (v1, e2.1, e3.1, c, d))

/-- Outer candidate scan over the two edges of `v1` (`full` is the whole
list, scanned again by the inner loop). -/
def scanOuter (comb : Combine VT ET CT) (vs : List (String × VT)) (v1 : Nat)
    (full : List (Edge CT ET)) : List (Edge CT ET) → Except Unit (Option (Upd CT ET))
  | [] => .ok none
  | e2 :: r =>
    match scanInner comb vs v1 e2 full with
    | .ok none => scanOuter comb vs v1 full r
    | x => x

/-- The labelled `'find_edge` scan of one pass: walk the adjacency index,
skip vertices whose list length is not 2, stop at the first accepted pair. -/
def findUpdate (comb : Combine VT ET CT) (vs : List (String × VT)) :
    EdgeMap CT ET → Except Unit (Option (Upd CT ET))
  | [] => .ok none
  | (v1, l) :: r =>
    if l.length = 2 then
      match scanOuter comb vs v1 l l with
      | .ok none => findUpdate comb vs r
      | x => x
    else findUpdate comb vs r

/-- Rewrite every entry whose destination is `vOld` to `(vNew, c, d)`
(the `iter_mut` loops in the elimination step). -/
def mapMatch (vOld vNew : Nat) (c : CT) (d : ET) :
    List (Edge CT ET) → List (Edge CT ET) :=
  List.map (fun e => if e.1 = vOld then (vNew, c, d) else e)

/-- The elimination step applied to a selected update: remove `v1`'s key,
redirect `v2`'s entries for `v1` to `v3` and `v3`'s entries for `v1` to `v2`;
`none` models the `expect("edge list")` panics. -/
def applyElim (m : EdgeMap CT ET) (v1 v2 v3 : Nat) (c : CT) (d : ET) :
    Option (EdgeMap CT ET) :=
  match updateList (removeKey m v1) v2 (mapMatch v1 v3 c d) with
  | none => none
  | some m2 => updateList m2 v3 (mapMatch v1 v2 c d)

theorem removeKey_length_le {κ α : Type} [DecidableEq κ] (m : List (κ × α)) (k : κ) :
    (removeKey m k).length ≤ m.length := by
  induction m with
  | nil => simp [removeKey]
  | cons q s ih =>
    by_cases hq : q.1 = k
    · simp only [removeKey, if_pos hq, List.length_cons]
      exact Nat.le_succ_of_le ih
    · simp only [removeKey, if_neg hq, List.length_cons]
      exact Nat.succ_le_succ ih

theorem removeKey_length_lt {κ α : Type} [DecidableEq κ] {m : List (κ × α)} {k : κ}
    (h : k ∈ m.map Prod.fst) : (removeKey m k).length < m.length := by
  induction m with
  | nil => simp at h
  | cons p r ih =>
    simp only [List.map_cons, List.mem_cons] at h
    by_cases hk : p.1 = k
    · simp only [removeKey, if_pos hk, List.length_cons]
      exact Nat.lt_succ_of_le (removeKey_length_le r k)
    · rcases h with h | h
      · exact absurd h.symm hk
      · simp only [removeKey, if_neg hk, List.length_cons]
        exact Nat.succ_lt_succ (ih h)

theorem setList_length {κ α : Type} [DecidableEq κ] (m : List (κ × α)) (k : κ) (v : α) :
    (setList m k v).length = m.length := by
  induction m with
  | nil => rfl
  | cons p r ih =>
    by_cases hk : p.1 = k
    · simp [setList, hk]
    · simp [setList, hk, ih]

theorem updateList_length {κ α : Type} [DecidableEq κ] {m m' : List (κ × α)} {k : κ}
    {f : α → α} (h : updateList m k f = some m') : m'.length = m.length := by
  unfold updateList at h
  cases hf : findA m k with
  | none => rw [hf] at h; exact absurd h (by simp)
  | some l =>
    rw [hf] at h
    cases h
    exact setList_length m k (f l)

theorem applyElim_length_lt {m m' : EdgeMap CT ET} {v1 v2 v3 : Nat} {c : CT} {d : ET}
    (hmem : v1 ∈ m.map Prod.fst) (h : applyElim m v1 v2 v3 c d = some m') :
    m'.length < m.length := by
  unfold applyElim at h
  cases h1 : updateList (removeKey m v1) v2 (mapMatch v1 v3 c d) with
  | none => rw [h1] at h; exact absurd h (by simp)
  | some m2 =>
    rw [h1] at h
    calc m'.length = m2.length := updateList_length h
    _ = (removeKey m v1).length := updateList_length h1
    _ < m.length := removeKey_length_lt hmem

theorem scanInner_fst {comb : Combine VT ET CT} {vs : List (String × VT)} {v1 : Nat}
    {e2 : Edge CT ET} {l : List (Edge CT ET)} {u : Upd CT ET}
    (h : scanInner comb vs v1 e2 l = .ok (some u)) : u.1 = v1 := by
  induction l with
  | nil => exact absurd h (by simp [scanInner])
  | cons e3 r ih =>
    unfold scanInner at h
    by_cases hd : e3.1 = e2.1
    · rw [if_pos hd] at h; exact ih h
    · rw [if_neg hd] at h
      cases ht : tryPair comb vs v1 e2.1 e3.1 e2.2.2 e2.2.1 e3.2.2 e3.2.1 with
      | error e => rw [ht] at h; exact absurd h (by simp)
      | ok o =>
        rw [ht] at h
        cases o with
        | none => exact ih h
        | some cd => cases h; rfl

theorem scanOuter_fst {comb : Combine VT ET CT} {vs : List (String × VT)} {v1 : Nat}
    {full l : List (Edge CT ET)} {u : Upd CT ET}
    (h : scanOuter comb vs v1 full l = .ok (some u)) : u.1 = v1 := by
  induction l with
  | nil => exact absurd h (by simp [scanOuter])
  | cons e2 r ih =>
    unfold scanOuter at h
    cases hs : scanInner comb vs v1 e2 full with
    | error e => rw [hs] at h; exact absurd h (by simp)
    | ok o =>
      rw [hs] at h
      cases o with
      | none => exact ih h
      | some u' => cases h; exact scanInner_fst hs

theorem findUpdate_mem {comb : Combine VT ET CT} {vs : List (String × VT)}
    {m : EdgeMap CT ET} {u : Upd CT ET}
    (h : findUpdate comb vs m = .ok (some u)) : u.1 ∈ m.map Prod.fst := by
  induction m with
  | nil => exact absurd h (by simp [findUpdate])
  | cons p r ih =>
    unfold findUpdate at h
    by_cases hl : p.2.length = 2
    · rw [if_pos hl] at h
      cases hs : scanOuter comb vs p.1 p.2 p.2 with
      | error e => rw [hs] at h; exact absurd h (by simp)
      | ok o =>
        rw [hs] at h
        cases o with
        | none => exact List.mem_cons_of_mem _ (ih h)
        | some u' =>
          cases h
          simp [scanOuter_fst hs]
    · rw [if_neg hl] at h
      exact List.mem_cons_of_mem _ (ih h)

/-- The `loop { ... }` of `compress`: one pass scans for an eligible vertex;
an elimination starts a new pass; a pass with no elimination ends the loop.
Well-founded on the number of adjacency keys, which each elimination
strictly decreases. -/
def loop (comb : Combine VT ET CT) (vs : List (String × VT)) (m : EdgeMap CT ET) :
    Except Unit (EdgeMap CT ET) :=
  match h : findUpdate comb vs m with
  | .error _ => .error ()
  | .ok none => .ok m
  | .ok (some (v1, v2, v3, c, d)) =>
    match h2 : applyElim m v1 v2 v3 c d with
    | none => .error ()
    | some m2 => loop comb vs m2
termination_by m.length
decreasing_by
  exact applyElim_length_lt (findUpdate_mem h) h2

/-- Fuel-indexed version of `loop`: `none` means the fuel ran out before the
fixed point was reached. -/
def loopFuel (comb : Combine VT ET CT) (vs : List (String × VT)) :
    Nat → EdgeMap CT ET → Option (Except Unit (EdgeMap CT ET))
  | 0, _ => none
  | n + 1, m =>
    match findUpdate comb vs m with
    | .error _ => some (.error ())
    | .ok none => some (.ok m)
    | .ok (some (v1, v2, v3, c, d)) =>
      match applyElim m v1 v2 v3 c d with
      | none => some (.error ())
      | some m2 => loopFuel comb vs n m2

/-- `BiGraph::compress`: move the vertex table, symmetrize the edges, then
run the elimination loop to its fixed point. -/
def compress (comb : Combine VT ET CT) (u : UniGraph VT ET CT) :
    Except Unit (BiGraph VT ET CT) :=
  match loop comb u.vertices (symmetrize u.edges) with
  | .error e => .error e
  | .ok m => .ok ⟨u.vertices, m⟩

/-- First pass of `UniGraph::new`: assign dense indices in encounter order,
record `(name, payload)` in the vertex table, give every index an empty
adjacency list, and check `Idx::try_from(vertices.len())`. -/
def build1 (maxIdx : Nat) (nmap : List (String × Nat)) (edges : EdgeMap CT ET)
    (vs : List (String × VT)) :
    List (String × VT × List (String × ET)) →
      Except BuildErr (List (String × Nat) × EdgeMap CT ET × List (String × VT))
  | [] => .ok (nmap, edges, vs)
  | (name, vd, _) :: rest =>
    if vs.length ≤ maxIdx then
      build1 maxIdx (mapInsert nmap name vs.length) (edges ++ [(vs.length, [])])
        (vs ++ [(name, vd)]) rest
    else .error .idxOverflow

/-- Second-pass body for one source vertex: resolve each outgoing edge's
destination name, compute its cost, and append it to the source's list. -/
def addOut (cf : VT → ET → CT) (nmap : List (String × Nat)) (vs : List (String × VT))
    (maxIdx : Nat) (edges : EdgeMap CT ET) (vi : Nat) :
    List (String × ET) → Except BuildErr (EdgeMap CT ET)
  | [] => .ok edges
  | (tn, ed) :: rest =>
    match findA nmap tn with
    | none => .error .unknownDest
    | some ti =>
      if vi ≤ maxIdx then
        match findA edges vi with
        | none => .error .internalPanic
        | some _ =>
          if ti ≤ maxIdx then
            match vs.get? vi with
            | none => .error .internalPanic
            | some sv =>
              match updateList edges vi (fun l => l ++ [(ti, cf sv.2 ed, ed)]) with
              | none => .error .internalPanic
              | some e' => addOut cf nmap vs maxIdx e' vi rest
          else .error .idxOverflow
      else .error .idxOverflow

/-- Second pass of `UniGraph::new` over all records. -/
def build2 (cf : VT → ET → CT) (nmap : List (String × Nat)) (vs : List (String × VT))
    (maxIdx : Nat) (edges : EdgeMap CT ET) :
    List (String × VT × List (String × ET)) → Except BuildErr (EdgeMap CT ET)
  | [] => .ok edges
  | (name, _, outs) :: rest =>
    match findA nmap name with
    | none => .error .internalPanic
    | some vi =>
      match addOut cf nmap vs maxIdx edges vi outs with
      | .error e => .error e
      | .ok e' => build2 cf nmap vs maxIdx e' rest

/-- `UniGraph::new`: two passes over the declarative edge list. -/
def UniGraph.new (maxIdx : Nat) (cf : VT → ET → CT)
    (data : List (String × VT × List (String × ET))) :
    Except BuildErr (UniGraph VT ET CT) :=
  match build1 maxIdx [] [] [] data with
  | .error e => .error e
  | .ok (nmap, e0, vs) =>
    match build2 cf nmap vs maxIdx e0 data with
    | .error e => .error e
    | .ok e' => .ok ⟨vs, e'⟩

theorem findA_eq_none_iff {κ α : Type} [DecidableEq κ] {m : List (κ × α)} {k : κ} :
    findA m k = none ↔ k ∉ m.map Prod.fst := by
  induction m with
  | nil => simp [findA]
  | cons p r ih =>
    simp only [findA, List.map_cons, List.mem_cons]
    by_cases hk : p.1 = k
    · simp [hk]
    · rw [if_neg hk, ih]
      constructor
      · intro h hmem
        rcases hmem with h1 | h1
        · exact hk h1.symm
        · exact h h1
      · intro h h1
        exact h (Or.inr h1)

theorem findA_mem {κ α : Type} [DecidableEq κ] {m : List (κ × α)} {k : κ} {l : α}
    (h : findA m k = some l) : (k, l) ∈ m := by
  induction m with
  | nil => exact absurd h (by simp [findA])
  | cons p r ih =>
    unfold findA at h
    by_cases hk : p.1 = k
    · rw [if_pos hk] at h
      cases h
      subst hk
      simp
    · rw [if_neg hk] at h
      exact List.mem_cons_of_mem _ (ih h)

theorem findA_setList_self {κ α : Type} [DecidableEq κ] {m : List (κ × α)} {k : κ}
    {l : α} (v : α) (h : findA m k = some l) : findA (setList m k v) k = some v := by
  induction m with
  | nil => exact absurd h (by simp [findA])
  | cons p r ih =>
    unfold findA at h
    by_cases hk : p.1 = k
    · simp [setList, hk, findA]
    · rw [if_neg hk] at h
      simp [setList, hk, findA, ih h]

theorem findA_setList_ne {κ α : Type} [DecidableEq κ] (m : List (κ × α)) (k : κ)
    (v : α) {j : κ} (hj : j ≠ k) : findA (setList m k v) j = findA m j := by
  induction m with
  | nil => simp [setList]
  | cons p r ih =>
    unfold setList
    by_cases hk : p.1 = k
    · rw [if_pos hk]
      have h1 : ¬(k = j) := fun h => hj h.symm
      have h2 : ¬(p.1 = j) := by rw [hk]; exact h1
      simp only [findA, if_neg h1, if_neg h2]
    · rw [if_neg hk]
      simp only [findA]
      by_cases hpj : p.1 = j
      · rw [if_pos hpj, if_pos hpj]
      · rw [if_neg hpj, if_neg hpj]
        exact ih

theorem setList_keys {κ α : Type} [DecidableEq κ] (m : List (κ × α)) (k : κ) (v : α) :
    (setList m k v).map Prod.fst = m.map Prod.fst := by
  induction m with
  | nil => rfl
  | cons p r ih =>
    by_cases hk : p.1 = k
    · simp [setList, hk]
    · simp [setList, hk, ih]

theorem findA_removeKey {κ α : Type} [DecidableEq κ] (m : List (κ × α)) (k j : κ) :
    findA (removeKey m k) j = if j = k then none else findA m j := by
  induction m with
  | nil => simp [removeKey, findA]
  | cons p r ih =>
    unfold removeKey
    by_cases hk : p.1 = k
    · rw [if_pos hk, ih]
      by_cases hj : j = k
      · rw [if_pos hj, if_pos hj]
      · have h2 : ¬(p.1 = j) := by rw [hk]; exact fun h => hj h.symm
        rw [if_neg hj, if_neg hj]
        simp only [findA, if_neg h2]
    · rw [if_neg hk]
      simp only [findA]
      by_cases hpj : p.1 = j
      · have hj : ¬(j = k) := fun h => hk (hpj.trans h)
        rw [if_pos hpj, if_neg hj, if_pos hpj]
      · rw [if_neg hpj, ih]
        by_cases hj : j = k
        · rw [if_pos hj, if_pos hj]
        · rw [if_neg hj, if_neg hj, if_neg hpj]

theorem removeKey_sublist {κ α : Type} [DecidableEq κ] (m : List (κ × α)) (k : κ) :
    (removeKey m k).Sublist m := by
  induction m with
  | nil => simp [removeKey]
  | cons p r ih =>
    by_cases hk : p.1 = k
    · simp only [removeKey, if_pos hk]
      exact ih.cons p
    · simp only [removeKey, if_neg hk]
      exact ih.cons₂ p

theorem updateList_eq_some {κ α : Type} [DecidableEq κ] {m m' : List (κ × α)} {k : κ}
    {f : α → α} : updateList m k f = some m' ↔
      ∃ l, findA m k = some l ∧ m' = setList m k (f l) := by
  unfold updateList
  cases h : findA m k with
  | none => simp
  | some l => simp [eq_comm]

theorem findA_append {κ α : Type} [DecidableEq κ] (m m₂ : List (κ × α)) (j : κ) :
    findA (m ++ m₂) j =
      match findA m j with
      | some x => some x
      | none => findA m₂ j := by
  induction m with
  | nil => simp [findA]
  | cons p r ih =>
    by_cases hp : p.1 = j
    · simp [findA, hp]
    · simp [findA, hp, ih]

theorem mapMatch_length (vOld vNew : Nat) (c : CT) (d : ET) (l : List (Edge CT ET)) :
    (mapMatch vOld vNew c d l).length = l.length := by
  simp [mapMatch]

theorem mapMatch_mem {vOld vNew : Nat} {c : CT} {d : ET} {l : List (Edge CT ET)}
    {e : Edge CT ET} (h : e ∈ mapMatch vOld vNew c d l) :
    (∃ e₀ ∈ l, e₀.1 ≠ vOld ∧ e = e₀) ∨ (e = (vNew, c, d) ∧ ∃ e₀ ∈ l, e₀.1 = vOld) := by
  simp only [mapMatch, List.mem_map] at h
  obtain ⟨e₀, he₀, heq⟩ := h
  by_cases hv : e₀.1 = vOld
  · rw [if_pos hv] at heq
    exact Or.inr ⟨heq.symm, e₀, he₀, hv⟩
  · rw [if_neg hv] at heq
    exact Or.inl ⟨e₀, he₀, hv, heq.symm⟩

theorem mem_mapMatch_of_mem {vOld vNew : Nat} {c : CT} {d : ET} {l : List (Edge CT ET)}
    {e : Edge CT ET} (he : e ∈ l) (hv : e.1 ≠ vOld) : e ∈ mapMatch vOld vNew c d l := by
  simp only [mapMatch, List.mem_map]
  exact ⟨e, he, by rw [if_neg hv]⟩

theorem mem_mapMatch_new {vOld vNew : Nat} {c : CT} {d : ET} {l : List (Edge CT ET)}
    {e : Edge CT ET} (he : e ∈ l) (hv : e.1 = vOld) :
    (vNew, c, d) ∈ mapMatch vOld vNew c d l := by
  simp only [mapMatch, List.mem_map]
  exact ⟨e, he, by rw [if_pos hv]⟩

theorem loopFuel_succ_of_some {comb : Combine VT ET CT} {vs : List (String × VT)}
    {n : Nat} {m : EdgeMap CT ET} {r : Except Unit (EdgeMap CT ET)}
    (h : loopFuel comb vs n m = some r) : loopFuel comb vs (n + 1) m = some r := by
  induction n generalizing m with
  | zero => exact absurd h (by simp [loopFuel])
  | succ n ih =>
    unfold loopFuel at h ⊢
    cases hf : findUpdate comb vs m with
    | error e => simp only [hf] at h ⊢; exact h
    | ok o =>
      cases o with
      | none => simp only [hf] at h ⊢; exact h
      | some u =>
        obtain ⟨v1, v2, v3, c, d⟩ := u
        simp only [hf] at h ⊢
        cases ha : applyElim m v1 v2 v3 c d with
        | none => simp only [ha] at h ⊢; exact h
        | some m2 => simp only [ha] at h ⊢; exact ih h

theorem loopFuel_mono {comb : Combine VT ET CT} {vs : List (String × VT)}
    {n n' : Nat} {m : EdgeMap CT ET} {r : Except Unit (EdgeMap CT ET)}
    (hn : n ≤ n') (h : loopFuel comb vs n m = some r) : loopFuel comb vs n' m = some r := by
  induction hn with
  | refl => exact h
  | step _ ih => exact loopFuel_succ_of_some ih

theorem loop_of_error {comb : Combine VT ET CT} {vs : List (String × VT)}
    {m : EdgeMap CT ET} {e : Unit} (h : findUpdate comb vs m = .error e) :
    loop comb vs m = .error () := by
  rw [loop]
  split
  · rfl
  · rename_i heq; rw [h] at heq; cases heq
  · rename_i heq
    rw [h] at heq; cases heq

theorem loop_of_none {comb : Combine VT ET CT} {vs : List (String × VT)}
    {m : EdgeMap CT ET} (h : findUpdate comb vs m = .ok none) :
    loop comb vs m = .ok m := by
  rw [loop]
  split
  · rename_i heq; rw [h] at heq; cases heq
  · rfl
  · rename_i heq
    rw [h] at heq; cases heq

theorem loop_of_elim_panic {comb : Combine VT ET CT} {vs : List (String × VT)}
    {m : EdgeMap CT ET} {v1 v2 v3 : Nat} {c : CT} {d : ET}
    (h : findUpdate comb vs m = .ok (some (v1, v2, v3, c, d)))
    (ha : applyElim m v1 v2 v3 c d = none) : loop comb vs m = .error () := by
  rw [loop]
  split
  · rfl
  · rename_i heq; rw [h] at heq; cases heq
  · rename_i v1' v2' v3' c' d' heq
    rw [h] at heq
    cases heq
    split
    · rfl
    · rename_i m2 heq2
      rw [ha] at heq2; cases heq2

theorem loop_of_elim {comb : Combine VT ET CT} {vs : List (String × VT)}
    {m m2 : EdgeMap CT ET} {v1 v2 v3 : Nat} {c : CT} {d : ET}
    (h : findUpdate comb vs m = .ok (some (v1, v2, v3, c, d)))
    (ha : applyElim m v1 v2 v3 c d = some m2) :
    loop comb vs m = loop comb vs m2 := by
  rw [loop]
  split
  · rename_i heq; rw [h] at heq; cases heq
  · rename_i heq; rw [h] at heq; cases heq
  · rename_i v1' v2' v3' c' d' heq
    rw [h] at heq
    cases heq
    split
    · rename_i heq2; rw [ha] at heq2; cases heq2
    · rename_i m2' heq2
      rw [ha] at heq2
      cases heq2
      rfl

theorem loop_eq_loopFuel {comb : Combine VT ET CT} {vs : List (String × VT)} :
    ∀ n (m : EdgeMap CT ET), m.length < n →
      loopFuel comb vs n m = some (loop comb vs m) := by
  intro n
  induction n with
  | zero => intro m hm; exact absurd hm (by simp)
  | succ n ih =>
    intro m hm
    unfold loopFuel
    cases hf : findUpdate comb vs m with
    | error e => simp only [loop_of_error hf]
    | ok o =>
      cases o with
      | none => simp only [loop_of_none hf]
      | some u =>
        obtain ⟨v1, v2, v3, c, d⟩ := u
        cases ha : applyElim m v1 v2 v3 c d with
        | none => simp only [hf, ha, loop_of_elim_panic hf ha]
        | some m2 =>
          have hlt : m2.length < m.length :=
            applyElim_length_lt (findUpdate_mem hf) ha
          simp only [hf, ha]
          rw [loop_of_elim hf ha]
          exact ih m2 (Nat.lt_of_lt_of_le hlt (Nat.lt_succ_iff.mp hm))

theorem loop_eval {comb : Combine VT ET CT} {vs : List (String × VT)}
    {m : EdgeMap CT ET} {r : Except Unit (EdgeMap CT ET)}
    (h : loopFuel comb vs (m.length + 1) m = some r) : loop comb vs m = r := by
  have h2 := @loop_eq_loopFuel VT ET CT comb vs (m.length + 1) m (Nat.lt_succ_self _)
  rw [h] at h2
  exact (Option.some.inj h2).symm

theorem compress_eval {comb : Combine VT ET CT} {u : UniGraph VT ET CT}
    {m : EdgeMap CT ET}
    (h : loopFuel comb u.vertices ((symmetrize u.edges).length + 1) (symmetrize u.edges)
      = some (.ok m)) : compress comb u = .ok ⟨u.vertices, m⟩ := by
  unfold compress
  rw [loop_eval h]

/-- Adjacency list of vertex `k`, empty when `k` has no adjacency-index key. -/
def listOf (m : EdgeMap CT ET) (k : Nat) : List (Edge CT ET) := (findA m k).getD []

/-- Pairwise symmetry with identical cost and payload. -/
def Sym (m : EdgeMap CT ET) : Prop :=
  ∀ a b c d, (b, c, d) ∈ listOf m a → (a, c, d) ∈ listOf m b

theorem findA_addEdge_ne {j k : Nat} (m : EdgeMap CT ET) (dst : Nat) (c : CT) (d : ET)
    (hj : j ≠ k) : findA (addEdgeIfAbsent m k dst c d) j = findA m j := by
  cases h : findA m k with
  | none =>
    simp only [addEdgeIfAbsent, h]
    rw [findA_append]
    cases hfj : findA m j with
    | some l => rfl
    | none =>
      simp only [findA, if_neg (fun hh : k = j => hj hh.symm)]
  | some l =>
    simp only [addEdgeIfAbsent, h]
    by_cases ha : l.any (fun e => decide (e.1 = dst)) = true
    · rw [if_pos ha]
    · rw [if_neg ha]
      exact findA_setList_ne m k _ hj

theorem listOf_addEdge_ne {j k : Nat} (m : EdgeMap CT ET) (dst : Nat) (c : CT) (d : ET)
    (hj : j ≠ k) : listOf (addEdgeIfAbsent m k dst c d) j = listOf m j := by
  unfold listOf
  rw [findA_addEdge_ne m dst c d hj]

theorem addEdge_present {m : EdgeMap CT ET} {k dst : Nat} {c : CT} {d : ET}
    (hp : ∃ e ∈ listOf m k, e.1 = dst) : addEdgeIfAbsent m k dst c d = m := by
  cases h : findA m k with
  | none =>
    exfalso
    obtain ⟨e, he, _⟩ := hp
    rw [listOf, h] at he
    exact absurd he (by simp)
  | some l =>
    simp only [addEdgeIfAbsent, h]
    have hl : listOf m k = l := by rw [listOf, h]; rfl
    rw [hl] at hp
    have : l.any (fun e => decide (e.1 = dst)) = true := by
      rw [List.any_eq_true]
      obtain ⟨e, he, hd⟩ := hp
      exact ⟨e, he, by simp [hd]⟩
    rw [if_pos this]

theorem listOf_addEdge_self {m : EdgeMap CT ET} {k dst : Nat} {c : CT} {d : ET}
    (hab : ∀ e ∈ listOf m k, e.1 ≠ dst) :
    listOf (addEdgeIfAbsent m k dst c d) k = listOf m k ++ [(dst, c, d)] := by
  cases h : findA m k with
  | none =>
    simp only [addEdgeIfAbsent, h]
    have hl : listOf m k = [] := by rw [listOf, h]; rfl
    rw [hl, listOf, findA_append, h]
    simp [findA]
  | some l =>
    simp only [addEdgeIfAbsent, h]
    have hl : listOf m k = l := by rw [listOf, h]; rfl
    have ha : l.any (fun e => decide (e.1 = dst)) = false := by
      rw [List.any_eq_false]
      intro e he
      simp only [decide_eq_true_eq]
      exact hab e (hl ▸ he)
    rw [if_neg (by rw [ha]; exact Bool.false_ne_true), hl, listOf,
      findA_setList_self _ h]
    rfl

theorem sym_symStep {m : EdgeMap CT ET} {f : Nat} {e : Edge CT ET} (hs : Sym m) :
    Sym (symStep m f e) := by
  obtain ⟨dst, c, d⟩ := e
  unfold symStep
  dsimp only
  by_cases hp : ∃ e₀ ∈ listOf m f, e₀.1 = dst
  · -- the forward entry already exists, so both pushes are skipped
    rw [addEdge_present hp]
    have hrev : ∃ e₀ ∈ listOf m dst, e₀.1 = f := by
      obtain ⟨e₀, he₀, hd⟩ := hp
      obtain ⟨b₀, c₀, d₀⟩ := e₀
      simp only at hd
      exact ⟨(f, c₀, d₀), hd ▸ hs f b₀ c₀ d₀ he₀, rfl⟩
    rw [addEdge_present hrev]
    exact hs
  · push_neg at hp
    by_cases hfd : f = dst
    · -- self-loop: the forward push adds the entry, the reverse push is skipped
      rw [← hfd] at hp ⊢
      have h1 := listOf_addEdge_self (m := m) (c := c) (d := d) hp
      rw [addEdge_present ⟨(f, c, d), h1 ▸ List.mem_append_right _ (by simp), rfl⟩]
      intro a b c' d' hmem
      by_cases haf : a = f
      · rw [haf, h1] at hmem
        rcases List.mem_append.mp hmem with hmem | hmem
        · have hbm := hs f b c' d' hmem
          by_cases hbf : b = f
          · rw [hbf] at hbm
            rw [hbf, h1, haf]
            exact List.mem_append_left _ hbm
          · rw [listOf_addEdge_ne m f c d hbf, haf]
            exact hbm
        · simp only [List.mem_singleton, Prod.mk.injEq] at hmem
          obtain ⟨hb, hc, hd⟩ := hmem
          rw [hb, hc, hd, h1, haf]
          exact List.mem_append_right _ (by simp)
      · rw [listOf_addEdge_ne m f c d haf] at hmem
        have hbm := hs a b c' d' hmem
        by_cases hbf : b = f
        · rw [hbf] at hbm
          rw [hbf, h1]
          exact List.mem_append_left _ hbm
        · rw [listOf_addEdge_ne m f c d hbf]
          exact hbm
    · -- distinct endpoints: both pushes happen with the same cost and payload
      have h1 := listOf_addEdge_self (m := m) (c := c) (d := d) hp
      have hrevab : ∀ e₀ ∈ listOf (addEdgeIfAbsent m f dst c d) dst, e₀.1 ≠ f := by
        rw [listOf_addEdge_ne m dst c d (fun hh => hfd hh.symm)]
        intro e₀ he₀ hef
        obtain ⟨b₀, c₀, d₀⟩ := e₀
        simp only at hef
        exact hp (dst, c₀, d₀) (hef ▸ hs dst b₀ c₀ d₀ he₀) rfl
      have h2 := listOf_addEdge_self (c := c) (d := d) hrevab
      rw [listOf_addEdge_ne m dst c d (fun hh => hfd hh.symm)] at h2
      intro a b c' d' hmem
      have key : ∀ x, listOf (addEdgeIfAbsent (addEdgeIfAbsent m f dst c d) dst f c d) x
          = if x = f then listOf m f ++ [(dst, c, d)]
            else if x = dst then listOf m dst ++ [(f, c, d)]
            else listOf m x := by
        intro x
        by_cases hxf : x = f
        · rw [if_pos hxf, hxf, listOf_addEdge_ne _ f c d hfd, h1]
        · rw [if_neg hxf]
          by_cases hxd : x = dst
          · rw [if_pos hxd, hxd, h2]
          · rw [if_neg hxd, listOf_addEdge_ne _ f c d hxd,
              listOf_addEdge_ne m dst c d hxf]
      rw [key a] at hmem
      rw [key b]
      by_cases haf : a = f
      · rw [if_pos haf] at hmem
        rcases List.mem_append.mp hmem with hmem | hmem
        · have hbm := hs f b c' d' (haf ▸ hmem)
          by_cases hbf : b = f
          · rw [hbf] at hbm
            rw [if_pos hbf, haf]
            exact List.mem_append_left _ hbm
          · rw [if_neg hbf]
            by_cases hbd : b = dst
            · rw [hbd] at hbm
              rw [if_pos hbd, haf]
              exact List.mem_append_left _ hbm
            · rw [if_neg hbd, haf]
              exact hbm
        · simp only [List.mem_singleton, Prod.mk.injEq] at hmem
          obtain ⟨hb, hc, hd⟩ := hmem
          rw [hb, hc, hd, if_neg (fun hh => hfd hh.symm), if_pos rfl, haf]
          exact List.mem_append_right _ (by simp)
      · rw [if_neg haf] at hmem
        by_cases had : a = dst
        · rw [if_pos had] at hmem
          rcases List.mem_append.mp hmem with hmem | hmem
          · have hbm := hs dst b c' d' (had ▸ hmem)
            by_cases hbf : b = f
            · rw [hbf] at hbm
              rw [if_pos hbf, had]
              exact List.mem_append_left _ hbm
            · rw [if_neg hbf]
              by_cases hbd : b = dst
              · rw [hbd] at hbm
                rw [if_pos hbd, had]
                exact List.mem_append_left _ hbm
              · rw [if_neg hbd, had]
                exact hbm
          · simp only [List.mem_singleton, Prod.mk.injEq] at hmem
            obtain ⟨hb, hc, hd⟩ := hmem
            rw [hb, hc, hd, if_pos rfl, had]
            exact List.mem_append_right _ (by simp)
        · rw [if_neg had] at hmem
          have hbm := hs a b c' d' hmem
          by_cases hbf : b = f
          · rw [hbf] at hbm
            rw [if_pos hbf]
            exact List.mem_append_left _ hbm
          · rw [if_neg hbf]
            by_cases hbd : b = dst
            · rw [hbd] at hbm
              rw [if_pos hbd]
              exact List.mem_append_left _ hbm
            · rw [if_neg hbd]
              exact hbm

theorem sym_symAddList {m : EdgeMap CT ET} {f : Nat} {l : List (Edge CT ET)}
    (hs : Sym m) : Sym (symAddList f m l) := by
  induction l generalizing m with
  | nil => exact hs
  | cons e r ih => exact ih (sym_symStep hs)

theorem sym_symAll {m : EdgeMap CT ET} {es : EdgeMap CT ET} (hs : Sym m) :
    Sym (symAll m es) := by
  induction es generalizing m with
  | nil => exact hs
  | cons p r ih => exact ih (sym_symAddList hs)

theorem symmetrize_sym (es : EdgeMap CT ET) : Sym (symmetrize es) := by
  unfold symmetrize
  exact sym_symAll (by intro a b c d h; simp [listOf, findA] at h)

theorem tryPair_some_comb {comb : Combine VT ET CT} {vs : List (String × VT)}
    {v1 v2 v3 : Nat} {d2 : ET} {c2 : CT} {d3 : ET} {c3 : CT} {cd : CT × ET}
    (h : tryPair comb vs v1 v2 v3 d2 c2 d3 c3 = .ok (some cd)) :
    ∃ p1 p2 p3, comb p1 p2 p3 d2 c2 d3 c3 = some cd := by
  unfold tryPair at h
  cases h1 : vs.get? v1 with
  | none => rw [h1] at h; cases h
  | some p1 =>
    cases h2 : vs.get? v2 with
    | none => rw [h1, h2] at h; cases h
    | some p2 =>
      cases h3 : vs.get? v3 with
      | none => rw [h1, h2, h3] at h; cases h
      | some p3 =>
        rw [h1, h2, h3] at h
        exact ⟨p1.2, p2.2, p3.2, Except.ok.inj h⟩

theorem scanInner_noneComb {comb : Combine VT ET CT} {vs : List (String × VT)}
    {v1 : Nat} {e2 : Edge CT ET}
    (hn : ∀ p1 p2 p3 da ca db cb, comb p1 p2 p3 da ca db cb = none)
    (l : List (Edge CT ET)) (u : Upd CT ET) :
    scanInner comb vs v1 e2 l ≠ .ok (some u) := by
  induction l with
  | nil => simp [scanInner]
  | cons e3 r ih =>
    unfold scanInner
    by_cases hd : e3.1 = e2.1
    · rw [if_pos hd]; exact ih
    · rw [if_neg hd]
      cases ht : tryPair comb vs v1 e2.1 e3.1 e2.2.2 e2.2.1 e3.2.2 e3.2.1 with
      | error e => simp
      | ok o =>
        cases o with
        | none => exact ih
        | some cd =>
          obtain ⟨p1, p2, p3, hcomb⟩ := tryPair_some_comb ht
          rw [hn p1 p2 p3 _ _ _ _] at hcomb
          cases hcomb

theorem scanOuter_noneComb {comb : Combine VT ET CT} {vs : List (String × VT)}
    {v1 : Nat} {full : List (Edge CT ET)}
    (hn : ∀ p1 p2 p3 da ca db cb, comb p1 p2 p3 da ca db cb = none)
    (l : List (Edge CT ET)) (u : Upd CT ET) :
    scanOuter comb vs v1 full l ≠ .ok (some u) := by
  induction l with
  | nil => simp [scanOuter]
  | cons e2 r ih =>
    unfold scanOuter
    cases hs : scanInner comb vs v1 e2 full with
    | error e => simp
    | ok o =>
      cases o with
      | none => exact ih
      | some u' => exact absurd hs (scanInner_noneComb hn full u')

theorem findUpdate_noneComb {comb : Combine VT ET CT} {vs : List (String × VT)}
    (hn : ∀ p1 p2 p3 da ca db cb, comb p1 p2 p3 da ca db cb = none)
    (m : EdgeMap CT ET) (u : Upd CT ET) :
    findUpdate comb vs m ≠ .ok (some u) := by
  induction m with
  | nil => simp [findUpdate]
  | cons p r ih =>
    unfold findUpdate
    by_cases hl : p.2.length = 2
    · rw [if_pos hl]
      cases hs : scanOuter comb vs p.1 p.2 p.2 with
      | error e => simp
      | ok o =>
        cases o with
        | none => exact ih
        | some u' => exact absurd hs (scanOuter_noneComb hn p.2 u')
    · rw [if_neg hl]; exact ih

/-- C1: for every input directed graph, when the combine function returns
`None` for every candidate, the `BiGraph` returned by `compress` is exactly
the symmetrized graph, and for every vertex `u` and entry `(v, cost, data)`
in `u`'s adjacency list, `v`'s adjacency list contains the matching entry
`(u, cost, data)` with identical cost and payload. -/
theorem compress_allNone_symmetric {comb : Combine VT ET CT} {u : UniGraph VT ET CT}
    {g : BiGraph VT ET CT}
    (hn : ∀ p1 p2 p3 da ca db cb, comb p1 p2 p3 da ca db cb = none)
    (hc : compress comb u = .ok g) :
    ∀ a b c d, (b, c, d) ∈ listOf g.edges a → (a, c, d) ∈ listOf g.edges b := by
  cases hf : findUpdate comb u.vertices (symmetrize u.edges) with
  | error e =>
    unfold compress at hc
    rw [loop_of_error hf] at hc
    cases hc
  | ok o =>
    cases o with
    | none =>
      unfold compress at hc
      rw [loop_of_none hf] at hc
      simp only at hc
      injection hc with h2
      subst h2
      exact symmetrize_sym u.edges
    | some u' => exact absurd hf (findUpdate_noneComb hn _ u')

/-- Concrete combine function that rejects every candidate. -/
def combNoneNat : Combine Nat Nat Nat := fun _ _ _ _ _ _ _ => none

/-- Two-vertex graph with a single directed edge, for the C1 witness. -/
def uC1 : UniGraph Nat Nat Nat := ⟨[("A", 0), ("B", 0)], [(0, [(1, 7, 5)])]⟩

/-- Expected compression result of `uC1` under `combNoneNat`. -/
def gC1 : BiGraph Nat Nat Nat := ⟨[("A", 0), ("B", 0)], [(0, [(1, 7, 5)]), (1, [(0, 7, 5)])]⟩

theorem compress_allNone_symmetric_witness :
    compress combNoneNat uC1 = .ok gC1 ∧ (0, 7, 5) ∈ listOf gC1.edges 1 := by
  have hc : compress combNoneNat uC1 = .ok gC1 := compress_eval rfl
  exact ⟨hc, compress_allNone_symmetric (fun _ _ _ _ _ _ _ => rfl) hc 0 1 7 5 (by decide)⟩

/-- Keys of an association list are pairwise distinct (true for every map the
code builds, mirroring `HashMap`). -/
abbrev NodupKeys {κ α : Type} (m : List (κ × α)) : Prop := (m.map Prod.fst).Nodup

theorem nodupKeys_addEdge {m : EdgeMap CT ET} {k dst : Nat} {c : CT} {d : ET}
    (h : NodupKeys m) : NodupKeys (addEdgeIfAbsent m k dst c d) := by
  cases hf : findA m k with
  | none =>
    simp only [addEdgeIfAbsent, hf]
    unfold NodupKeys
    rw [List.map_append]
    simp only [List.map_cons, List.map_nil]
    rw [List.nodup_append]
    refine ⟨h, List.nodup_singleton k, ?_⟩
    intro x hx hx2
    simp only [List.mem_singleton] at hx2
    subst hx2
    exact (findA_eq_none_iff.mp hf) hx
  | some l =>
    simp only [addEdgeIfAbsent, hf]
    by_cases ha : l.any (fun e => decide (e.1 = dst)) = true
    · rw [if_pos ha]; exact h
    · rw [if_neg ha]
      unfold NodupKeys
      rw [setList_keys]
      exact h

theorem nodupKeys_symAddList {m : EdgeMap CT ET} {f : Nat} {l : List (Edge CT ET)}
    (h : NodupKeys m) : NodupKeys (symAddList f m l) := by
  induction l generalizing m with
  | nil => exact h
  | cons e r ih => exact ih (nodupKeys_addEdge (nodupKeys_addEdge h))

theorem nodupKeys_symAll {m es : EdgeMap CT ET} (h : NodupKeys m) :
    NodupKeys (symAll m es) := by
  induction es generalizing m with
  | nil => exact h
  | cons p r ih => exact ih (nodupKeys_symAddList h)

theorem nodupKeys_symmetrize (es : EdgeMap CT ET) : NodupKeys (symmetrize es) :=
  nodupKeys_symAll (by simp [NodupKeys])

theorem findA_of_mem_nodup {κ α : Type} [DecidableEq κ] {m : List (κ × α)} {k : κ}
    {l : α} (hnd : NodupKeys m) (h : (k, l) ∈ m) : findA m k = some l := by
  induction m with
  | nil => simp at h
  | cons p r ih =>
    rcases List.mem_cons.mp h with h1 | h1
    · rw [← h1]
      simp [findA]
    · unfold findA
      by_cases hk : p.1 = k
      · exfalso
        unfold NodupKeys at hnd
        simp only [List.map_cons, List.nodup_cons] at hnd
        exact hnd.1 (hk ▸ (List.mem_map.mpr ⟨(k, l), h1, rfl⟩))
      · rw [if_neg hk]
        exact ih (by
          unfold NodupKeys at hnd ⊢
          simp only [List.map_cons, List.nodup_cons] at hnd
          exact hnd.2) h1

theorem scanInner_spec {comb : Combine VT ET CT} {vs : List (String × VT)} {v1 : Nat}
    {e2 : Edge CT ET} {l : List (Edge CT ET)} {u : Upd CT ET}
    (h : scanInner comb vs v1 e2 l = .ok (some u)) :
    ∃ e3 ∈ l, e3.1 ≠ e2.1 ∧ u.2.1 = e2.1 ∧ u.2.2.1 = e3.1 := by
  induction l with
  | nil => exact absurd h (by simp [scanInner])
  | cons e3 r ih =>
    unfold scanInner at h
    by_cases hd : e3.1 = e2.1
    · rw [if_pos hd] at h
      obtain ⟨e3', hm, hx⟩ := ih h
      exact ⟨e3', List.mem_cons_of_mem _ hm, hx⟩
    · rw [if_neg hd] at h
      cases ht : tryPair comb vs v1 e2.1 e3.1 e2.2.2 e2.2.1 e3.2.2 e3.2.1 with
      | error e => rw [ht] at h; cases h
      | ok o =>
        rw [ht] at h
        cases o with
        | none =>
          obtain ⟨e3', hm, hx⟩ := ih h
          exact ⟨e3', List.mem_cons_of_mem _ hm, hx⟩
        | some cd =>
          cases h
          exact ⟨e3, List.mem_cons_self _ _, hd, rfl, rfl⟩

theorem scanOuter_spec {comb : Combine VT ET CT} {vs : List (String × VT)} {v1 : Nat}
    {full l : List (Edge CT ET)} {u : Upd CT ET}
    (h : scanOuter comb vs v1 full l = .ok (some u)) :
    ∃ e2 ∈ l, ∃ e3 ∈ full, e3.1 ≠ e2.1 ∧ u.2.1 = e2.1 ∧ u.2.2.1 = e3.1 := by
  induction l with
  | nil => exact absurd h (by simp [scanOuter])
  | cons e2 r ih =>
    unfold scanOuter at h
    cases hs : scanInner comb vs v1 e2 full with
    | error e => rw [hs] at h; cases h
    | ok o =>
      rw [hs] at h
      cases o with
      | none =>
        obtain ⟨e2', hm, hx⟩ := ih h
        exact ⟨e2', List.mem_cons_of_mem _ hm, hx⟩
      | some u' =>
        cases h
        obtain ⟨e3, hm3, hx⟩ := scanInner_spec hs
        exact ⟨e2, List.mem_cons_self _ _, e3, hm3, hx⟩

theorem findUpdate_spec {comb : Combine VT ET CT} {vs : List (String × VT)}
    {m : EdgeMap CT ET} {u : Upd CT ET}
    (h : findUpdate comb vs m = .ok (some u)) :
    ∃ l, (u.1, l) ∈ m ∧ l.length = 2 ∧
      ∃ e2 ∈ l, ∃ e3 ∈ l, e3.1 ≠ e2.1 ∧ u.2.1 = e2.1 ∧ u.2.2.1 = e3.1 := by
  induction m with
  | nil => exact absurd h (by simp [findUpdate])
  | cons p r ih =>
    unfold findUpdate at h
    by_cases hl : p.2.length = 2
    · rw [if_pos hl] at h
      cases hs : scanOuter comb vs p.1 p.2 p.2 with
      | error e => rw [hs] at h; cases h
      | ok o =>
        rw [hs] at h
        cases o with
        | none =>
          obtain ⟨l, hm, hx⟩ := ih h
          exact ⟨l, List.mem_cons_of_mem _ hm, hx⟩
        | some u' =>
          cases h
          obtain ⟨e2, hm2, e3, hm3, hx⟩ := scanOuter_spec hs
          have hf := scanOuter_fst hs
          refine ⟨p.2, ?_, hl, e2, hm2, e3, hm3, hx⟩
          rw [hf]
          exact List.mem_cons_self _ _
    · rw [if_neg hl] at h
      obtain ⟨l, hm, hx⟩ := ih h
      exact ⟨l, List.mem_cons_of_mem _ hm, hx⟩

/-- Full characterization of a successful elimination step. -/
theorem applyElim_spec {m m' : EdgeMap CT ET} {v1 v2 v3 : Nat} {c : CT} {d : ET}
    (h : applyElim m v1 v2 v3 c d = some m') :
    ∃ l2 l3, v2 ≠ v1 ∧ v3 ≠ v1 ∧
      findA m v2 = some l2 ∧ findA m v3 = some l3 ∧
      (∀ j, j ≠ v1 → j ≠ v2 → j ≠ v3 → findA m' j = findA m j) ∧
      findA m' v1 = none ∧
      (v2 ≠ v3 → findA m' v2 = some (mapMatch v1 v3 c d l2) ∧
        findA m' v3 = some (mapMatch v1 v2 c d l3)) ∧
      (v2 = v3 → findA m' v2 = some (mapMatch v1 v2 c d (mapMatch v1 v3 c d l2))) ∧
      m'.map Prod.fst = (removeKey m v1).map Prod.fst := by
  unfold applyElim at h
  cases h1 : updateList (removeKey m v1) v2 (mapMatch v1 v3 c d) with
  | none => rw [h1] at h; cases h
  | some m2 =>
    rw [h1] at h
    obtain ⟨l2, hl2, hm2⟩ := updateList_eq_some.mp h1
    obtain ⟨l3', hl3', hm'⟩ := updateList_eq_some.mp h
    have hv2 : v2 ≠ v1 := by
      intro hv
      rw [findA_removeKey, if_pos hv] at hl2
      cases hl2
    rw [findA_removeKey, if_neg hv2] at hl2
    have hm2v2 : findA m2 v2 = some (mapMatch v1 v3 c d l2) := by
      rw [hm2]
      exact findA_setList_self _ (by rw [findA_removeKey, if_neg hv2]; exact hl2)
    have hm2ne : ∀ j, j ≠ v2 → findA m2 j = findA (removeKey m v1) j := by
      intro j hj
      rw [hm2]
      exact findA_setList_ne _ _ _ hj
    by_cases hv23 : v2 = v3
    · -- both neighbor updates hit the same list
      have hl3eq : l3' = mapMatch v1 v3 c d l2 := by
        rw [← hv23] at hl3'
        rw [hm2v2] at hl3'
        exact (Option.some.inj hl3').symm
      have hv3 : v3 ≠ v1 := hv23 ▸ hv2
      have hv1v2 : v1 ≠ v2 := fun hh => hv2 hh.symm
      have hv1v3 : v1 ≠ v3 := fun hh => hv3 hh.symm
      refine ⟨l2, l2, hv2, hv3, hl2, hv23 ▸ hl2, ?_, ?_, ?_, ?_, ?_⟩
      · intro j hj1 hj2 hj3
        rw [hm', findA_setList_ne _ _ _ hj3, hm2ne j hj2, findA_removeKey, if_neg hj1]
      · rw [hm', findA_setList_ne _ _ _ hv1v3, hm2ne v1 hv1v2, findA_removeKey,
          if_pos rfl]
      · intro hne; exact absurd hv23 hne
      · intro _
        have hself : findA m' v3 = some (mapMatch v1 v2 c d l3') := by
          rw [hm']
          exact findA_setList_self _ hl3'
        rw [hv23, hself, hl3eq, hv23]
      · rw [hm', setList_keys, hm2, setList_keys]
    · -- the generic case with two distinct neighbor lists
      have hl3m : findA (removeKey m v1) v3 = some l3' := by
        rw [← hm2ne v3 (fun hh => hv23 hh.symm)]
        exact hl3'
      have hv3 : v3 ≠ v1 := by
        intro hv
        rw [findA_removeKey, if_pos hv] at hl3m
        cases hl3m
      rw [findA_removeKey, if_neg hv3] at hl3m
      refine ⟨l2, l3', hv2, hv3, hl2, hl3m, ?_, ?_, ?_, ?_, ?_⟩
      · intro j hj1 hj2 hj3
        rw [hm', findA_setList_ne _ _ _ hj3, hm2ne j hj2, findA_removeKey, if_neg hj1]
      · rw [hm', findA_setList_ne _ _ _ (fun hh => hv3 hh.symm), hm2ne v1
          (fun hh => hv2 hh.symm), findA_removeKey, if_pos rfl]
      · intro _
        constructor
        · rw [hm', findA_setList_ne _ _ _ (fun hh => hv23 hh), hm2v2]
        · rw [hm']
          exact findA_setList_self _ hl3'
      · intro hh; exact absurd hh hv23
      · rw [hm', setList_keys, hm2, setList_keys]

/-- Every edge either has its symmetric partner among the remaining keys, or
points at a vertex with no adjacency-index key. -/
def SymOrGone (m : EdgeMap CT ET) : Prop :=
  ∀ a la b c d, findA m a = some la → (b, c, d) ∈ la →
    ∀ lb, findA m b = some lb → (a, c, d) ∈ lb

theorem symOrGone_of_sym {m : EdgeMap CT ET} (hs : Sym m) : SymOrGone m := by
  intro a la b c d ha hmem lb hb
  have h1 : (b, c, d) ∈ listOf m a := by rw [listOf, ha]; exact hmem
  have h2 := hs a b c d h1
  rw [listOf, hb] at h2
  exact h2

theorem symOrGone_elim {comb : Combine VT ET CT} {vs : List (String × VT)}
    {m m' : EdgeMap CT ET} {v1 v2 v3 : Nat} {c : CT} {d : ET}
    (hnd : NodupKeys m) (hinv : SymOrGone m)
    (hf : findUpdate comb vs m = .ok (some (v1, v2, v3, c, d)))
    (ha : applyElim m v1 v2 v3 c d = some m') : SymOrGone m' := by
  obtain ⟨l, hlmem, _, e2, he2, e3, he3, hne, hu2, hu3⟩ := findUpdate_spec hf
  simp only at hu2 hu3
  have hv23 : v2 ≠ v3 := by
    rw [hu2, hu3]
    exact fun hh => hne hh.symm
  have hfv1 : findA m v1 = some l := findA_of_mem_nodup hnd hlmem
  obtain ⟨l2, l3, hv2, hv3, hfl2, hfl3, hframe, hv1none, hpair, _, _⟩ :=
    applyElim_spec ha
  obtain ⟨hm'v2, hm'v3⟩ := hpair hv23
  have hmem2 : (v2, e2.2.1, e2.2.2) ∈ l := by rw [hu2]; exact he2
  have hmem3 : (v3, e3.2.1, e3.2.2) ∈ l := by rw [hu3]; exact he3
  have hrev2 : (v1, e2.2.1, e2.2.2) ∈ l2 := hinv v1 l v2 _ _ hfv1 hmem2 l2 hfl2
  have hrev3 : (v1, e3.2.1, e3.2.2) ∈ l3 := hinv v1 l v3 _ _ hfv1 hmem3 l3 hfl3
  intro a la b cc dd hfa hmem lb hfb
  have hav1 : a ≠ v1 := by
    intro hh; rw [hh, hv1none] at hfa; cases hfa
  have hbv1 : b ≠ v1 := by
    intro hh; rw [hh, hv1none] at hfb; cases hfb
  -- helper discharging the goal once the matching entry is known in the old map
  have finish : (a, cc, dd) ∈ (if b = v2 then l2 else if b = v3 then l3 else
      (findA m b).getD []) → (a, cc, dd) ∈ lb := by
    intro hold
    by_cases hbv2 : b = v2
    · rw [if_pos hbv2] at hold
      rw [hbv2, hm'v2] at hfb
      rw [← Option.some.inj hfb]
      exact mem_mapMatch_of_mem hold hav1
    · rw [if_neg hbv2] at hold
      by_cases hbv3 : b = v3
      · rw [if_pos hbv3] at hold
        rw [hbv3, hm'v3] at hfb
        rw [← Option.some.inj hfb]
        exact mem_mapMatch_of_mem hold hav1
      · rw [if_neg hbv3] at hold
        rw [hframe b hbv1 hbv2 hbv3] at hfb
        rw [hfb] at hold
        exact hold
  -- helper turning an old-map entry of a into the old-map matching entry of b
  have chain : ∀ lao, findA m a = some lao → (b, cc, dd) ∈ lao →
      (a, cc, dd) ∈ (if b = v2 then l2 else if b = v3 then l3 else
        (findA m b).getD []) := by
    intro lao hfao hmemo
    have hc := hinv a lao b cc dd hfao hmemo
    by_cases hbv2 : b = v2
    · rw [if_pos hbv2]
      exact hc l2 (hbv2 ▸ hfl2)
    · rw [if_neg hbv2]
      by_cases hbv3 : b = v3
      · rw [if_pos hbv3]
        exact hc l3 (hbv3 ▸ hfl3)
      · rw [if_neg hbv3]
        cases hfbo : findA m b with
        | none =>
          exfalso
          rw [hframe b hbv1 hbv2 hbv3, hfbo] at hfb
          cases hfb
        | some lbo =>
          simp only [Option.getD_some]
          exact hc lbo hfbo
  by_cases hav2 : a = v2
  · rw [hav2, hm'v2] at hfa
    rw [← Option.some.inj hfa] at hmem
    rcases mapMatch_mem hmem with ⟨e₀, he₀, hne₀, heq⟩ | ⟨heq, _, _, _⟩
    · refine finish (chain l2 (hav2 ▸ hfl2) ?_)
      rw [heq]
      exact he₀
    · -- the rewritten entry: its partner is the rewritten entry of the far list
      have hb3 : b = v3 := congrArg Prod.fst heq
      have hcc : cc = c := congrArg (fun p => p.2.1) heq
      have hdd : dd = d := congrArg (fun p => p.2.2) heq
      rw [hb3, hm'v3] at hfb
      rw [← Option.some.inj hfb, hav2, hcc, hdd]
      exact mem_mapMatch_new hrev3 rfl
  · by_cases hav3 : a = v3
    · rw [hav3, hm'v3] at hfa
      rw [← Option.some.inj hfa] at hmem
      rcases mapMatch_mem hmem with ⟨e₀, he₀, hne₀, heq⟩ | ⟨heq, _, _, _⟩
      · refine finish (chain l3 (hav3 ▸ hfl3) ?_)
        rw [heq]
        exact he₀
      · have hb2 : b = v2 := congrArg Prod.fst heq
        have hcc : cc = c := congrArg (fun p => p.2.1) heq
        have hdd : dd = d := congrArg (fun p => p.2.2) heq
        rw [hb2, hm'v2] at hfb
        rw [← Option.some.inj hfb, hav3, hcc, hdd]
        exact mem_mapMatch_new hrev2 rfl
    · rw [hframe a hav1 hav2 hav3] at hfa
      exact finish (chain la hfa hmem)

theorem nodupKeys_applyElim {m m' : EdgeMap CT ET} {v1 v2 v3 : Nat} {c : CT} {d : ET}
    (hnd : NodupKeys m) (ha : applyElim m v1 v2 v3 c d = some m') : NodupKeys m' := by
  obtain ⟨_, _, _, _, _, _, _, _, _, _, hkeys⟩ := applyElim_spec ha
  unfold NodupKeys
  rw [hkeys]
  exact ((removeKey_sublist m v1).map Prod.fst).nodup hnd

theorem loopFuel_symOrGone {comb : Combine VT ET CT} {vs : List (String × VT)} :
    ∀ n (m m' : EdgeMap CT ET), loopFuel comb vs n m = some (.ok m') →
      NodupKeys m → SymOrGone m → SymOrGone m' := by
  intro n
  induction n with
  | zero => intro m m' h; exact absurd h (by simp [loopFuel])
  | succ n ih =>
    intro m m' h hnd hinv
    unfold loopFuel at h
    cases hf : findUpdate comb vs m with
    | error e => simp only [hf] at h; cases h
    | ok o =>
      cases o with
      | none =>
        simp only [hf] at h
        rw [← Except.ok.inj (Option.some.inj h)]
        exact hinv
      | some u =>
        obtain ⟨v1, v2, v3, c, d⟩ := u
        simp only [hf] at h
        cases ha : applyElim m v1 v2 v3 c d with
        | none => simp only [ha] at h; cases h
        | some m2 =>
          simp only [ha] at h
          exact ih m2 m' h (nodupKeys_applyElim hnd ha)
            (symOrGone_elim hnd hinv hf ha)

/-- C2: for every input directed graph and combine function, in the `BiGraph`
returned by `compress`, every entry `(v, cost, data)` of a remaining key `u`
either has a matching `(u, cost, data)` entry at remaining key `v`, or `v`'s
adjacency-index key was eliminated (absent from the map). -/
theorem compress_symmetry_or_eliminated {comb : Combine VT ET CT}
    {u : UniGraph VT ET CT} {g : BiGraph VT ET CT}
    (hc : compress comb u = .ok g) :
    ∀ a la b c d, findA g.edges a = some la → (b, c, d) ∈ la →
      (∃ lb, findA g.edges b = some lb ∧ (a, c, d) ∈ lb) ∨ findA g.edges b = none := by
  have hloop : loop comb u.vertices (symmetrize u.edges) = .ok g.edges := by
    unfold compress at hc
    cases hl : loop comb u.vertices (symmetrize u.edges) with
    | error e => rw [hl] at hc; cases hc
    | ok m =>
      rw [hl] at hc
      simp only at hc
      injection hc with h2
      rw [← h2]
  have hfuel : loopFuel comb u.vertices ((symmetrize u.edges).length + 1)
      (symmetrize u.edges) = some (.ok g.edges) := by
    rw [loop_eq_loopFuel ((symmetrize u.edges).length + 1) _ (Nat.lt_succ_self _), hloop]
  have hinv : SymOrGone g.edges :=
    loopFuel_symOrGone _ _ _ hfuel (nodupKeys_symmetrize u.edges)
      (symOrGone_of_sym (symmetrize_sym u.edges))
  intro a la b c d hfa hmem
  cases hfb : findA g.edges b with
  | none => exact Or.inr rfl
  | some lb => exact Or.inl ⟨lb, rfl, hinv a la b c d hfa hmem lb hfb⟩

/-- Combine function for the C2 witness: always merges, adding the costs. -/
def combAddNat : Combine Nat Nat Nat := fun _ _ _ _ ca _ cb => some (ca + cb, 0)

/-- Three-vertex chain for the C2 witness. -/
def uC2 : UniGraph Nat Nat Nat :=
  ⟨[("A", 0), ("B", 0), ("C", 0)], [(0, [(1, 1, 0)]), (1, [(2, 2, 0)]), (2, [])]⟩

/-- Expected compression result of `uC2` under `combAddNat`. -/
def gC2 : BiGraph Nat Nat Nat :=
  ⟨[("A", 0), ("B", 0), ("C", 0)], [(0, [(2, 3, 0)]), (2, [(0, 3, 0)])]⟩

theorem compress_symmetry_or_eliminated_witness :
    compress combAddNat uC2 = .ok gC2 ∧
      ((∃ lb, findA gC2.edges 2 = some lb ∧ (0, 3, 0) ∈ lb) ∨
        findA gC2.edges 2 = none) := by
  have hc : compress combAddNat uC2 = .ok gC2 := compress_eval rfl
  exact ⟨hc, compress_symmetry_or_eliminated hc 0 [(2, 3, 0)] 2 3 0 (by decide)
    (by decide)⟩

theorem removeKey_eq_self {κ α : Type} [DecidableEq κ] {m : List (κ × α)} {k : κ}
    (h : k ∉ m.map Prod.fst) : removeKey m k = m := by
  induction m with
  | nil => rfl
  | cons p r ih =>
    simp only [List.map_cons, List.mem_cons] at h
    push_neg at h
    simp only [removeKey, if_neg (fun hh : p.1 = k => h.1 hh.symm)]
    rw [ih h.2]

theorem removeKey_length_succ {κ α : Type} [DecidableEq κ] {m : List (κ × α)} {k : κ}
    (hnd : NodupKeys m) (h : k ∈ m.map Prod.fst) :
    (removeKey m k).length + 1 = m.length := by
  induction m with
  | nil => simp at h
  | cons p r ih =>
    unfold NodupKeys at hnd
    simp only [List.map_cons, List.nodup_cons] at hnd
    simp only [List.map_cons, List.mem_cons] at h
    by_cases hk : p.1 = k
    · simp only [removeKey, if_pos hk, List.length_cons]
      rw [removeKey_eq_self (hk ▸ hnd.1)]
    · rcases h with h | h
      · exact absurd h.symm hk
      · simp only [removeKey, if_neg hk, List.length_cons]
        rw [ih hnd.2 h]

theorem applyElim_length_succ {m m' : EdgeMap CT ET} {v1 v2 v3 : Nat} {c : CT} {d : ET}
    (hnd : NodupKeys m) (hmem : v1 ∈ m.map Prod.fst)
    (h : applyElim m v1 v2 v3 c d = some m') : m'.length + 1 = m.length := by
  unfold applyElim at h
  cases h1 : updateList (removeKey m v1) v2 (mapMatch v1 v3 c d) with
  | none => rw [h1] at h; cases h
  | some m2 =>
    rw [h1] at h
    rw [updateList_length h, updateList_length h1]
    exact removeKey_length_succ hnd hmem

theorem mem_keys_addEdge {m : EdgeMap CT ET} {k dst x : Nat} {c : CT} {d : ET}
    (h : x ∈ (addEdgeIfAbsent m k dst c d).map Prod.fst) :
    x ∈ m.map Prod.fst ∨ x = k := by
  cases hf : findA m k with
  | none =>
    simp only [addEdgeIfAbsent, hf] at h
    rw [List.map_append] at h
    rcases List.mem_append.mp h with h | h
    · exact Or.inl h
    · simp only [List.map_cons, List.map_nil, List.mem_singleton] at h
      exact Or.inr h
  | some l =>
    simp only [addEdgeIfAbsent, hf] at h
    by_cases ha : l.any (fun e => decide (e.1 = dst)) = true
    · rw [if_pos ha] at h; exact Or.inl h
    · rw [if_neg ha, setList_keys] at h; exact Or.inl h

theorem mem_keys_symAddList {m : EdgeMap CT ET} {f x : Nat} {l : List (Edge CT ET)}
    (h : x ∈ (symAddList f m l).map Prod.fst) :
    x ∈ m.map Prod.fst ∨ x = f ∨ ∃ e ∈ l, x = e.1 := by
  induction l generalizing m with
  | nil => exact Or.inl h
  | cons e r ih =>
    rcases ih h with h1 | h1 | ⟨e', he', hx⟩
    · unfold symStep at h1
      rcases mem_keys_addEdge h1 with h2 | h2
      · rcases mem_keys_addEdge h2 with h3 | h3
        · exact Or.inl h3
        · exact Or.inr (Or.inl h3)
      · exact Or.inr (Or.inr ⟨e, List.mem_cons_self _ _, h2⟩)
    · exact Or.inr (Or.inl h1)
    · exact Or.inr (Or.inr ⟨e', List.mem_cons_of_mem _ he', hx⟩)

theorem mem_keys_symAll {m es : EdgeMap CT ET} {x : Nat}
    (h : x ∈ (symAll m es).map Prod.fst) :
    x ∈ m.map Prod.fst ∨ ∃ p ∈ es, x = p.1 ∨ ∃ e ∈ p.2, x = e.1 := by
  induction es generalizing m with
  | nil => exact Or.inl h
  | cons p r ih =>
    rcases ih h with h1 | ⟨p', hp', hx⟩
    · rcases mem_keys_symAddList h1 with h2 | h2 | ⟨e', he', hx⟩
      · exact Or.inl h2
      · exact Or.inr ⟨p, List.mem_cons_self _ _, Or.inl h2⟩
      · exact Or.inr ⟨p, List.mem_cons_self _ _, Or.inr ⟨e', he', hx⟩⟩
    · exact Or.inr ⟨p', List.mem_cons_of_mem _ hp', hx⟩

theorem symmetrize_length_le {es : EdgeMap CT ET} {n : Nat}
    (hb : ∀ p ∈ es, p.1 < n ∧ ∀ e ∈ p.2, e.1 < n) :
    (symmetrize es).length ≤ n := by
  have hnd := nodupKeys_symmetrize es
  have hsub : (symmetrize es).map Prod.fst ⊆ List.range n := by
    intro x hx
    rw [List.mem_range]
    rcases mem_keys_symAll hx with h1 | ⟨p, hp, hx1⟩
    · simp at h1
    · rcases hx1 with hx1 | ⟨e, he, hx1⟩
      · exact hx1 ▸ (hb p hp).1
      · exact hx1 ▸ (hb p hp).2 e he
  have := (List.subperm_of_subset hnd hsub).length_le
  rw [List.length_map, List.length_range] at this
  exact this

/-- C3: `compress` terminates on every finite graph: each successful
elimination removes exactly one adjacency-index key, the elimination loop
reaches its fixed point within (number of adjacency keys + 1) scans, and for
a dense input graph (every key and destination below the vertex count, as
the builder guarantees) the number of adjacency keys after symmetrization is
at most the vertex count. -/
theorem compress_terminates (comb : Combine VT ET CT) (u : UniGraph VT ET CT) :
    (∀ (m m' : EdgeMap CT ET) v1 v2 v3 c d, NodupKeys m →
      findUpdate comb u.vertices m = .ok (some (v1, v2, v3, c, d)) →
      applyElim m v1 v2 v3 c d = some m' → m'.length + 1 = m.length) ∧
    loopFuel comb u.vertices ((symmetrize u.edges).length + 1) (symmetrize u.edges)
      = some (loop comb u.vertices (symmetrize u.edges)) ∧
    ((∀ p ∈ u.edges, p.1 < u.vertices.length ∧ ∀ e ∈ p.2, e.1 < u.vertices.length) →
      (symmetrize u.edges).length ≤ u.vertices.length) := by
  refine ⟨?_, ?_, ?_⟩
  · intro m m' v1 v2 v3 c d hnd hf ha
    exact applyElim_length_succ hnd (findUpdate_mem hf) ha
  · exact loop_eq_loopFuel _ _ (Nat.lt_succ_self _)
  · intro hb
    exact symmetrize_length_le hb

theorem compress_terminates_witness :
    applyElim (symmetrize uC2.edges) 1 0 2 3 0
        = some [(0, [(2, 3, 0)]), (2, [(0, 3, 0)])] ∧
      ([(0, [(2, 3, 0)]), (2, [(0, 3, 0)])] : EdgeMap Nat Nat).length + 1
        = (symmetrize uC2.edges).length ∧
      loopFuel combAddNat uC2.vertices ((symmetrize uC2.edges).length + 1)
        (symmetrize uC2.edges)
        = some (loop combAddNat uC2.vertices (symmetrize uC2.edges)) ∧
      (symmetrize uC2.edges).length ≤ uC2.vertices.length := by
  have h := compress_terminates combAddNat uC2
  exact ⟨rfl,
    h.1 (symmetrize uC2.edges) [(0, [(2, 3, 0)]), (2, [(0, 3, 0)])] 1 0 2 3 0
      (by decide) rfl rfl,
    h.2.1,
    h.2.2 (by decide)⟩

/-- Combine function of the chain-contraction scenario: add the costs and
concatenate the labels, overlapping at the shared vertex name. -/
def combC4 : Combine String String Nat :=
  fun _ _ _ da ca db cb => some (ca + cb, da ++ db.drop 1)

/-- The chain `A→B→C→D` with costs 1, 2, 3 and label payloads. -/
def uC4 : UniGraph String String Nat :=
  ⟨[("A", "A"), ("B", "B"), ("C", "C"), ("D", "D")],
    [(0, [(1, 1, "A-B")]), (1, [(2, 2, "B-C")]), (2, [(3, 3, "C-D")]), (3, [])]⟩

/-- Expected contraction of `uC4`. -/
def gC4 : BiGraph String String Nat :=
  ⟨[("A", "A"), ("B", "B"), ("C", "C"), ("D", "D")],
    [(0, [(3, 6, "A-B-C-D")]), (3, [(0, 6, "A-B-C-D")])]⟩

/-- C4: on the chain `A→B→C→D` (costs 1,2,3, label payloads) with an
always-merging combine function, `compress` keeps all four vertex-table
entries, retains only the adjacency keys of `A` and `D`, and gives them the
single synthesized edge `(other endpoint, 6, "A-B-C-D")`. -/
theorem compress_chain_scenario :
    compress combC4 uC4 = .ok gC4 ∧
      gC4.vertices = [("A", "A"), ("B", "B"), ("C", "C"), ("D", "D")] ∧
      gC4.edges.map Prod.fst = [0, 3] ∧
      findA gC4.edges 0 = some [(3, 6, "A-B-C-D")] ∧
      findA gC4.edges 3 = some [(0, 6, "A-B-C-D")] := by
  refine ⟨compress_eval rfl, rfl, rfl, rfl, rfl⟩

/-- Single isolated vertex, for the C5 counterexample. -/
def uC5 : UniGraph Nat Nat Nat := ⟨[("A", 0)], [(0, [])]⟩

/-- Result of compressing `uC5`: the adjacency index is empty. -/
def gC5 : BiGraph Nat Nat Nat := ⟨[("A", 0)], []⟩

/-- C5 counterexample: compressing a graph whose only vertex is isolated
yields a `BiGraph` whose adjacency index does NOT contain that vertex as a
key at all (the claim asserts it survives as a key mapped to `[]`). -/
theorem compress_isolated_no_key_cex :
    compress combNoneNat uC5 = .ok gC5 ∧ findA gC5.edges 0 = none := by
  exact ⟨compress_eval rfl, rfl⟩

/-- C5 as amended: an isolated vertex (empty adjacency list, never a
destination) is never selected for elimination — only adjacency keys are ever
selected, and the vertex never becomes one — and the returned `BiGraph`'s
adjacency index does not contain it as a key at all: symmetrization creates a
key only when an edge touches it. -/
theorem compress_isolated_no_key {comb : Combine VT ET CT} {u : UniGraph VT ET CT}
    {v : Nat} {g : BiGraph VT ET CT}
    (hempty : ∀ p ∈ u.edges, p.1 = v → p.2 = [])
    (hnodest : ∀ p ∈ u.edges, ∀ e ∈ p.2, e.1 ≠ v)
    (hc : compress comb u = .ok g) :
    (∀ (m : EdgeMap CT ET) v2 v3 c d, findA m v = none →
      findUpdate comb u.vertices m ≠ .ok (some (v, v2, v3, c, d))) ∧
    findA g.edges v = none := by
  constructor
  · intro m v2 v3 c d hnone hf
    exact (findA_eq_none_iff.mp hnone) (findUpdate_mem hf)
  · -- the vertex never receives a key during symmetrization
    have hsym : findA (symmetrize u.edges) v = none := by
      unfold symmetrize
      have main : ∀ (es m : EdgeMap CT ET), (∀ p ∈ es, p.1 = v → p.2 = []) →
          (∀ p ∈ es, ∀ e ∈ p.2, e.1 ≠ v) → findA m v = none →
          findA (symAll m es) v = none := by
        intro es
        induction es with
        | nil => intro m _ _ hm; exact hm
        | cons p r ih =>
          intro m he hd hm
          unfold symAll
          refine ih _ (fun q hq => he q (List.mem_cons_of_mem _ hq))
            (fun q hq => hd q (List.mem_cons_of_mem _ hq)) ?_
          by_cases hpv : p.1 = v
          · rw [he p (List.mem_cons_self _ _) hpv]
            exact hm
          · have hdl : ∀ e ∈ p.2, e.1 ≠ v := hd p (List.mem_cons_self _ _)
            have gen : ∀ (pl : List (Edge CT ET)) (m2 : EdgeMap CT ET),
                (∀ e ∈ pl, e.1 ≠ v) → findA m2 v = none →
                findA (symAddList p.1 m2 pl) v = none := by
              intro pl
              induction pl with
              | nil => intro m2 _ hm2; exact hm2
              | cons e r2 ih2 =>
                intro m2 hdl2 hm2
                unfold symAddList
                refine ih2 _ (fun e' he' => hdl2 e' (List.mem_cons_of_mem _ he')) ?_
                unfold symStep
                rw [findA_addEdge_ne _ _ _ _ (fun hh : v = e.1 =>
                    hdl2 e (List.mem_cons_self _ _) hh.symm),
                  findA_addEdge_ne _ _ _ _ (fun hh : v = p.1 => hpv hh.symm)]
                exact hm2
            exact gen p.2 m hdl hm
      exact main u.edges [] hempty hnodest rfl
    -- the loop never creates keys, so absence is preserved to the end
    have hloop : loop comb u.vertices (symmetrize u.edges) = .ok g.edges := by
      unfold compress at hc
      cases hl : loop comb u.vertices (symmetrize u.edges) with
      | error e => rw [hl] at hc; cases hc
      | ok m =>
        rw [hl] at hc
        simp only at hc
        injection hc with h2
        rw [← h2]
    have hfuel : loopFuel comb u.vertices ((symmetrize u.edges).length + 1)
        (symmetrize u.edges) = some (.ok g.edges) := by
      rw [loop_eq_loopFuel ((symmetrize u.edges).length + 1) _ (Nat.lt_succ_self _),
        hloop]
    have keep : ∀ n (m m' : EdgeMap CT ET), loopFuel comb u.vertices n m
        = some (.ok m') → findA m v = none → findA m' v = none := by
      intro n
      induction n with
      | zero => intro m m' h; exact absurd h (by simp [loopFuel])
      | succ n ih =>
        intro m m' h hm
        unfold loopFuel at h
        cases hf : findUpdate comb u.vertices m with
        | error e => simp only [hf] at h; cases h
        | ok o =>
          cases o with
          | none =>
            simp only [hf] at h
            rw [← Except.ok.inj (Option.some.inj h)]
            exact hm
          | some upd =>
            obtain ⟨v1, v2, v3, c, d⟩ := upd
            simp only [hf] at h
            cases ha : applyElim m v1 v2 v3 c d with
            | none => simp only [ha] at h; cases h
            | some m2 =>
              simp only [ha] at h
              obtain ⟨l2, l3, _, _, hfl2, hfl3, hframe, hv1none, _, _, _⟩ :=
                applyElim_spec ha
              refine ih m2 m' h ?_
              have hv1 : v ≠ v1 := by
                intro hh
                exact (findA_eq_none_iff.mp hm) (hh ▸ findUpdate_mem hf)
              have hv2 : v ≠ v2 := by
                intro hh
                rw [← hh, hm] at hfl2
                cases hfl2
              have hv3 : v ≠ v3 := by
                intro hh
                rw [← hh, hm] at hfl3
                cases hfl3
              rw [hframe v hv1 hv2 hv3]
              exact hm
    exact keep _ _ _ hfuel hsym

theorem compress_isolated_no_key_witness :
    compress combNoneNat uC5 = .ok gC5 ∧ findA gC5.edges 0 = none := by
  have hc : compress combNoneNat uC5 = .ok gC5 := compress_eval rfl
  exact ⟨hc, (compress_isolated_no_key (by decide) (by decide) hc).2⟩

/-- No adjacency list mentions the same destination twice. -/
abbrev NoDupDests (m : EdgeMap CT ET) : Prop :=
  ∀ p ∈ m, (p.2.map (fun e => e.1)).Nodup

/-- Edge list declaring two parallel edges `A→B`, for the C6 counterexample. -/
def dataC6 : List (String × Nat × List (String × Nat)) :=
  [("A", 0, [("B", 1), ("B", 2)]), ("B", 0, [])]

/-- The graph the builder produces from `dataC6`. -/
def uC6a : UniGraph Nat Nat Nat :=
  ⟨[("A", 0), ("B", 0)], [(0, [(1, 1, 1), (1, 2, 2)]), (1, [])]⟩

/-- Directed triangle, for the C6 counterexample after compression. -/
def uC6b : UniGraph Nat Nat Nat :=
  ⟨[("A", 0), ("B", 0), ("C", 0)],
    [(0, [(1, 1, 10)]), (1, [(2, 1, 20)]), (2, [(0, 1, 30)])]⟩

/-- Compression result of the triangle: both remaining lists hold two entries
with the same destination. -/
def gC6b : BiGraph Nat Nat Nat :=
  ⟨[("A", 0), ("B", 0), ("C", 0)],
    [(1, [(2, 2, 0), (2, 1, 20)]), (2, [(1, 1, 20), (1, 2, 0)])]⟩

/-- C6 counterexample: the builder happily stores two entries with the same
destination (parallel edges are not deduplicated at build time), and an
elimination step can rewrite an edge onto an existing destination, so the
no-duplicate-destination property also fails during and after compression
(directed triangle). -/
theorem dup_dest_cex :
    (UniGraph.new 255 (fun _ e => e) dataC6 = .ok uC6a ∧ ¬ NoDupDests uC6a.edges) ∧
      (compress combAddNat uC6b = .ok gC6b ∧ ¬ NoDupDests gC6b.edges) := by
  exact ⟨⟨rfl, by decide⟩, ⟨compress_eval rfl, by decide⟩⟩

theorem noDupDests_setListAppend {m : EdgeMap CT ET} {k dst : Nat} {c : CT} {d : ET}
    {l : List (Edge CT ET)}
    (hnd : NoDupDests m) (hf : findA m k = some l)
    (habs : ∀ e ∈ l, e.1 ≠ dst) :
    NoDupDests (setList m k (l ++ [(dst, c, d)])) := by
  intro p hp
  have hmem : p ∈ m ∨ p = (k, l ++ [(dst, c, d)]) := by
    clear hnd hf
    induction m with
    | nil => simp [setList] at hp
    | cons q r ih =>
      unfold setList at hp
      by_cases hq : q.1 = k
      · rw [if_pos hq] at hp
        rcases List.mem_cons.mp hp with h1 | h1
        · exact Or.inr h1
        · exact Or.inl (List.mem_cons_of_mem _ h1)
      · rw [if_neg hq] at hp
        rcases List.mem_cons.mp hp with h1 | h1
        · exact Or.inl (h1 ▸ List.mem_cons_self _ _)
        · rcases ih h1 with h2 | h2
          · exact Or.inl (List.mem_cons_of_mem _ h2)
          · exact Or.inr h2
  rcases hmem with h1 | h1
  · exact hnd p h1
  · rw [h1]
    simp only [List.map_append, List.map_cons, List.map_nil]
    rw [List.nodup_append]
    refine ⟨hnd (k, l) (findA_mem hf), List.nodup_singleton _, ?_⟩
    intro x hx hx2
    simp only [List.mem_singleton] at hx2
    subst hx2
    obtain ⟨e, he, hex⟩ := List.mem_map.mp hx
    exact habs e he hex

theorem noDupDests_addEdge {m : EdgeMap CT ET} {k dst : Nat} {c : CT} {d : ET}
    (hnd : NoDupDests m) : NoDupDests (addEdgeIfAbsent m k dst c d) := by
  cases hf : findA m k with
  | none =>
    simp only [addEdgeIfAbsent, hf]
    intro p hp
    rcases List.mem_append.mp hp with h1 | h1
    · exact hnd p h1
    · simp only [List.mem_singleton] at h1
      rw [h1]
      simp
  | some l =>
    simp only [addEdgeIfAbsent, hf]
    by_cases ha : l.any (fun e => decide (e.1 = dst)) = true
    · rw [if_pos ha]; exact hnd
    · rw [if_neg ha]
      refine noDupDests_setListAppend hnd hf ?_
      intro e he
      have ha2 : l.any (fun e => decide (e.1 = dst)) = false :=
        Bool.eq_false_iff.mpr ha
      have := List.any_eq_false.mp ha2 e he
      simpa using this

/-- C6 as amended: immediately after symmetrization — and only there — no
adjacency list contains two entries with the same destination; the builder
and the elimination rewrite do not enforce this. -/
theorem symmetrize_noDupDests (es : EdgeMap CT ET) : NoDupDests (symmetrize es) := by
  unfold symmetrize
  have main : ∀ (es2 m : EdgeMap CT ET), NoDupDests m → NoDupDests (symAll m es2) := by
    intro es2
    induction es2 with
    | nil => intro m hm; exact hm
    | cons p r ih =>
      intro m hm
      unfold symAll
      refine ih _ ?_
      have sub : ∀ (l : List (Edge CT ET)) (m2 : EdgeMap CT ET), NoDupDests m2 →
          NoDupDests (symAddList p.1 m2 l) := by
        intro l
        induction l with
        | nil => intro m2 hm2; exact hm2
        | cons e r2 ih2 =>
          intro m2 hm2
          unfold symAddList
          exact ih2 _ (noDupDests_addEdge (noDupDests_addEdge hm2))
      exact sub p.2 m hm
  exact main es [] (by intro p hp; simp at hp)

theorem symmetrize_noDupDests_witness :
    NoDupDests (symmetrize ([(0, [(1, 1, 0), (1, 2, 0)])] : EdgeMap Nat Nat)) :=
  symmetrize_noDupDests _

theorem mapMatch_get {vOld vNew : Nat} {c : CT} {d : ET} {l : List (Edge CT ET)}
    {i : Nat} (hi : i < l.length) (hi2 : i < (mapMatch vOld vNew c d l).length) :
    (mapMatch vOld vNew c d l).get ⟨i, hi2⟩
      = if (l.get ⟨i, hi⟩).1 = vOld then (vNew, c, d) else l.get ⟨i, hi⟩ := by
  unfold mapMatch
  rw [List.get_map]

/-- The elimination step at graph level: the vertex table is carried through
unmodified while the adjacency index is rewritten in place. -/
def applyElimG (g : BiGraph VT ET CT) (v1 v2 v3 : Nat) (c : CT) (d : ET) :
    Option (BiGraph VT ET CT) :=
  match applyElim g.edges v1 v2 v3 c d with
  | none => none
  | some e => some ⟨g.vertices, e⟩

/-- C7: when an elimination of a degree-2 vertex `v1` with distinct
neighbors `v2` and `v3` is applied with the combined edge `(c, d)`, exactly
this changes: `v1`'s adjacency key is removed (the vertex table is untouched),
each entry with destination `v1` in `v2`'s list becomes `(v3, c, d)`, each
entry with destination `v1` in `v3`'s list becomes `(v2, c, d)`, every other
entry of those two lists is unchanged, and every other adjacency key maps to
its unchanged list. -/
theorem applyElim_frame {g g' : BiGraph VT ET CT} {v1 v2 v3 : Nat} {c : CT} {d : ET}
    (hne : v2 ≠ v3) (h : applyElimG g v1 v2 v3 c d = some g') :
    g'.vertices = g.vertices ∧
    findA g'.edges v1 = none ∧
    (∀ w, w ≠ v1 → w ≠ v2 → w ≠ v3 → findA g'.edges w = findA g.edges w) ∧
    (∃ l2 l2', findA g.edges v2 = some l2 ∧ findA g'.edges v2 = some l2' ∧
      l2'.length = l2.length ∧
      ∀ i (hi : i < l2.length) (hi2 : i < l2'.length),
        ((l2.get ⟨i, hi⟩).1 = v1 → l2'.get ⟨i, hi2⟩ = (v3, c, d)) ∧
        ((l2.get ⟨i, hi⟩).1 ≠ v1 → l2'.get ⟨i, hi2⟩ = l2.get ⟨i, hi⟩)) ∧
    (∃ l3 l3', findA g.edges v3 = some l3 ∧ findA g'.edges v3 = some l3' ∧
      l3'.length = l3.length ∧
      ∀ i (hi : i < l3.length) (hi2 : i < l3'.length),
        ((l3.get ⟨i, hi⟩).1 = v1 → l3'.get ⟨i, hi2⟩ = (v2, c, d)) ∧
        ((l3.get ⟨i, hi⟩).1 ≠ v1 → l3'.get ⟨i, hi2⟩ = l3.get ⟨i, hi⟩)) := by
  unfold applyElimG at h
  cases ha : applyElim g.edges v1 v2 v3 c d with
  | none => rw [ha] at h; cases h
  | some e =>
    rw [ha] at h
    have hv : g'.vertices = g.vertices ∧ g'.edges = e := by
      have h2 := Option.some.inj h
      constructor
      · rw [← h2]
      · rw [← h2]
    obtain ⟨l2, l3, _, _, hfl2, hfl3, hframe, hv1none, hpair, _, _⟩ := applyElim_spec ha
    obtain ⟨hm2, hm3⟩ := hpair hne
    refine ⟨hv.1, by rw [hv.2]; exact hv1none,
      fun w h1 h2 h3 => by rw [hv.2]; exact hframe w h1 h2 h3,
      ⟨l2, mapMatch v1 v3 c d l2, hfl2, by rw [hv.2]; exact hm2,
        mapMatch_length _ _ _ _ _, ?_⟩,
      ⟨l3, mapMatch v1 v2 c d l3, hfl3, by rw [hv.2]; exact hm3,
        mapMatch_length _ _ _ _ _, ?_⟩⟩
    · intro i hi hi2
      constructor
      · intro hdest
        rw [mapMatch_get hi hi2, if_pos hdest]
      · intro hdest
        rw [mapMatch_get hi hi2, if_neg hdest]
    · intro i hi hi2
      constructor
      · intro hdest
        rw [mapMatch_get hi hi2, if_pos hdest]
      · intro hdest
        rw [mapMatch_get hi hi2, if_neg hdest]

/-- Three-vertex bidirectional chain, input of the C7 witness. -/
def gC7 : BiGraph Nat Nat Nat :=
  ⟨[("A", 0), ("B", 0), ("C", 0)],
    [(0, [(1, 1, 0)]), (1, [(0, 1, 0), (2, 2, 0)]), (2, [(1, 2, 0)])]⟩

/-- Result of eliminating vertex 1 of `gC7` with the combined edge `(3, 9)`. -/
def gC7' : BiGraph Nat Nat Nat :=
  ⟨[("A", 0), ("B", 0), ("C", 0)], [(0, [(2, 3, 9)]), (2, [(0, 3, 9)])]⟩

theorem applyElim_frame_witness :
    applyElimG gC7 1 0 2 3 9 = some gC7' ∧
      gC7'.vertices = gC7.vertices ∧ findA gC7'.edges 1 = none := by
  have h : applyElimG gC7 1 0 2 3 9 = some gC7' := rfl
  have hf := applyElim_frame (g := gC7) (by decide) h
  exact ⟨h, hf.1, hf.2.1⟩

/-- Index of the last occurrence of a name (the `HashMap` built in pass one
maps each name to the index its last insert wrote). -/
def lastIdx : List String → String → Option Nat
  | [], _ => none
  | n :: r, nm =>
    match lastIdx r nm with
    | some i => some (i + 1)
    | none => if n = nm then some 0 else none

/-- The name map accumulated by pass one, starting at a base index. -/
def nmapAcc (nmap : List (String × Nat)) (base : Nat) : List String → List (String × Nat)
  | [] => nmap
  | n :: r => nmapAcc (mapInsert nmap n base) (base + 1) r

theorem findA_nmapAcc (nmap : List (String × Nat)) (base : Nat) (ns : List String)
    (nm : String) : findA (nmapAcc nmap base ns) nm
      = match lastIdx ns nm with
        | some i => some (base + i)
        | none => findA nmap nm := by
  induction ns generalizing nmap base with
  | nil => simp [nmapAcc, lastIdx]
  | cons n r ih =>
    unfold nmapAcc lastIdx
    rw [ih]
    cases h : lastIdx r nm with
    | some i =>
      simp only []
      rw [Nat.add_assoc, Nat.add_comm 1 i]
    | none =>
      by_cases hn : n = nm
      · simp [mapInsert, findA, hn]
      · simp [mapInsert, findA, hn]

theorem lastIdx_lt_length {ns : List String} {nm : String} {i : Nat}
    (h : lastIdx ns nm = some i) : i < ns.length := by
  induction ns generalizing i with
  | nil => cases h
  | cons n r ih =>
    unfold lastIdx at h
    cases h2 : lastIdx r nm with
    | some j =>
      rw [h2] at h
      simp only [Option.some.injEq] at h
      rw [← h]
      exact Nat.succ_lt_succ (ih h2)
    | none =>
      rw [h2] at h
      by_cases hn : n = nm
      · rw [if_pos hn] at h
        cases h
        simp
      · rw [if_neg hn] at h
        cases h

theorem lastIdx_eq_none_iff {ns : List String} {nm : String} :
    lastIdx ns nm = none ↔ nm ∉ ns := by
  induction ns with
  | nil => simp [lastIdx]
  | cons n r ih =>
    simp only [lastIdx, List.mem_cons]
    cases h : lastIdx r nm with
    | some i =>
      have hmem : nm ∈ r := by
        by_contra hc
        rw [ih.mpr hc] at h
        cases h
      simp only []
      constructor
      · intro hh; cases hh
      · intro hh; exact absurd (Or.inr hmem) hh
    | none =>
      have hnm : nm ∉ r := ih.mp h
      by_cases hn : n = nm
      · rw [if_pos hn]
        constructor
        · intro hh; cases hh
        · intro hh; exact absurd (Or.inl hn.symm) hh
      · rw [if_neg hn]
        constructor
        · intro _
          rintro (hh | hh)
          · exact hn hh.symm
          · exact hnm hh
        · intro _; rfl

theorem lastIdx_isSome_of_mem {ns : List String} {nm : String} (h : nm ∈ ns) :
    ∃ i, lastIdx ns nm = some i := by
  cases hl : lastIdx ns nm with
  | none => exact absurd h (lastIdx_eq_none_iff.mp hl)
  | some i => exact ⟨i, rfl⟩

theorem lastIdx_nodup {ns : List String} (hnd : ns.Nodup) :
    ∀ i (h : i < ns.length), lastIdx ns (ns.get ⟨i, h⟩) = some i := by
  induction ns with
  | nil => intro i h; simp at h
  | cons n r ih =>
    intro i h
    rw [List.nodup_cons] at hnd
    cases i with
    | zero =>
      simp only [List.get]
      unfold lastIdx
      rw [lastIdx_eq_none_iff.mpr hnd.1]
      simp
    | succ j =>
      simp only [List.get]
      unfold lastIdx
      rw [ih hnd.2 j (Nat.lt_of_succ_lt_succ h)]

theorem build1_char {data : List (String × VT × List (String × ET))} {maxIdx : Nat}
    {nmap nm' : List (String × Nat)} {edges e0 : EdgeMap CT ET}
    {vs vs' : List (String × VT)}
    (h : build1 maxIdx nmap edges vs data = .ok (nm', e0, vs')) :
    nm' = nmapAcc nmap vs.length (data.map (fun r => r.1)) ∧
    e0 = edges ++ (List.range' vs.length data.length).map
      (fun i => (i, ([] : List (Edge CT ET)))) ∧
    vs' = vs ++ data.map (fun r => (r.1, r.2.1)) := by
  induction data generalizing nmap edges vs with
  | nil =>
    unfold build1 at h
    injection h with h2
    injection h2 with ha h2
    injection h2 with hb hc
    simp [nmapAcc, ← ha, ← hb, ← hc]
  | cons p rest ih =>
    obtain ⟨name, vd, outs⟩ := p
    unfold build1 at h
    by_cases hle : vs.length ≤ maxIdx
    · rw [if_pos hle] at h
      obtain ⟨h1, h2, h3⟩ := ih h
      refine ⟨?_, ?_, ?_⟩
      · rw [h1]
        simp only [List.map_cons, nmapAcc, List.length_append, List.length_cons,
          List.length_nil]
      · rw [h2]
        simp only [List.map_cons, List.length_cons, List.range']
        rw [List.length_append]
        simp only [List.length_cons, List.length_nil, List.map_cons, List.append_assoc]
        rfl
      · rw [h3]
        simp [List.append_assoc]
    · rw [if_neg hle] at h
      cases h

theorem build1_ok_of_le {data : List (String × VT × List (String × ET))} {maxIdx : Nat} :
    ∀ {nmap : List (String × Nat)} {edges : EdgeMap CT ET} {vs : List (String × VT)},
    (∀ i, i < data.length → vs.length + i ≤ maxIdx) →
    ∃ t, build1 maxIdx nmap edges vs data = .ok t := by
  induction data with
  | nil => intro nmap edges vs _; exact ⟨_, rfl⟩
  | cons p rest ih =>
    intro nmap edges vs hcond
    obtain ⟨name, vd, outs⟩ := p
    unfold build1
    have h0 : vs.length ≤ maxIdx := by
      have := hcond 0 (by simp)
      simpa using this
    rw [if_pos h0]
    exact ih (fun i hi => by
      have := hcond (i + 1) (by simpa using Nat.succ_lt_succ hi)
      simpa [Nat.add_comm, Nat.add_assoc, Nat.add_left_comm] using this)

theorem build1_overflow {data : List (String × VT × List (String × ET))} {maxIdx : Nat} :
    ∀ {nmap : List (String × Nat)} {edges : EdgeMap CT ET} {vs : List (String × VT)},
    maxIdx < vs.length + data.length - 1 → data ≠ [] →
    build1 maxIdx nmap edges vs data = .error .idxOverflow := by
  induction data with
  | nil => intro nmap edges vs _ hne; exact absurd rfl hne
  | cons p rest ih =>
    intro nmap edges vs hover _
    obtain ⟨name, vd, outs⟩ := p
    unfold build1
    by_cases hle : vs.length ≤ maxIdx
    · rw [if_pos hle]
      have hne : rest ≠ [] := by
        intro hh
        subst hh
        simp only [List.length_cons, List.length_nil] at hover
        omega
      refine ih ?_ hne
      have hrl : 0 < rest.length := List.length_pos.mpr hne
      simp only [List.length_cons] at hover
      rw [List.length_append]
      simp only [List.length_cons, List.length_nil]
      omega
    · rw [if_neg hle]

theorem findA_rangeEdges (b len j : Nat) :
    findA ((List.range' b len).map (fun i => (i, ([] : List (Edge CT ET))))) j
      = if b ≤ j ∧ j < b + len then some [] else none := by
  induction len generalizing b with
  | zero =>
    rw [if_neg (by omega)]
    rfl
  | succ n ih =>
    simp only [List.range', List.map_cons, findA]
    by_cases hb : b = j
    · rw [if_pos hb, if_pos ⟨Nat.le_of_eq hb, by omega⟩]
    · rw [if_neg hb, ih (b + 1)]
      by_cases h1 : b + 1 ≤ j ∧ j < b + 1 + n
      · rw [if_pos h1, if_pos ⟨by omega, by omega⟩]
      · rw [if_neg h1, if_neg (by omega)]

theorem addOut_keys {cf : VT → ET → CT} {nmap : List (String × Nat)}
    {vs : List (String × VT)} {maxIdx : Nat} {edges e' : EdgeMap CT ET} {vi : Nat}
    {outs : List (String × ET)}
    (h : addOut cf nmap vs maxIdx edges vi outs = .ok e') :
    e'.map Prod.fst = edges.map Prod.fst := by
  induction outs generalizing edges with
  | nil =>
    unfold addOut at h
    injection h with h2
    rw [← h2]
  | cons o rest ih =>
    obtain ⟨tn, ed⟩ := o
    unfold addOut at h
    cases h1 : findA nmap tn with
    | none => simp only [h1] at h; cases h
    | some ti =>
      simp only [h1] at h
      by_cases h2 : vi ≤ maxIdx
      · rw [if_pos h2] at h
        cases h3 : findA edges vi with
        | none => simp only [h3] at h; cases h
        | some l0 =>
          simp only [h3] at h
          by_cases h4 : ti ≤ maxIdx
          · rw [if_pos h4] at h
            cases h5 : vs.get? vi with
            | none => simp only [h5] at h; cases h
            | some sv =>
              simp only [h5] at h
              cases h6 : updateList edges vi
                  (fun l => l ++ [(ti, cf sv.2 ed, ed)]) with
              | none => simp only [h6] at h; cases h
              | some e1 =>
                simp only [h6] at h
                obtain ⟨l, hfl, he1⟩ := updateList_eq_some.mp h6
                rw [ih h, he1, setList_keys]
          · rw [if_neg h4] at h; cases h
      · rw [if_neg h2] at h; cases h

theorem build2_keys {cf : VT → ET → CT} {nmap : List (String × Nat)}
    {vs : List (String × VT)} {maxIdx : Nat} {edges e' : EdgeMap CT ET}
    {data : List (String × VT × List (String × ET))}
    (h : build2 cf nmap vs maxIdx edges data = .ok e') :
    e'.map Prod.fst = edges.map Prod.fst := by
  induction data generalizing edges with
  | nil =>
    unfold build2 at h
    injection h with h2
    rw [← h2]
  | cons r rest ih =>
    obtain ⟨name, vd, outs⟩ := r
    unfold build2 at h
    cases h1 : findA nmap name with
    | none => simp only [h1] at h; cases h
    | some vi =>
      simp only [h1] at h
      cases h2 : addOut cf nmap vs maxIdx edges vi outs with
      | error e => simp only [h2] at h; cases h
      | ok e1 =>
        simp only [h2] at h
        rw [ih h, addOut_keys h2]

/-- Edges that pass two contributes to adjacency key `j`: the outgoing lists
of every record whose name resolves to `j`, each destination resolved and
each cost computed from the payload `sv` of vertex `j`. -/
def contribRes (cf : VT → ET → CT) (res : String → Option Nat) (sv : VT) (j : Nat)
    (data : List (String × VT × List (String × ET))) : List (Edge CT ET) :=
  ((data.filter (fun r => res r.1 == some j)).map
    (fun r => r.2.2.map (fun o => ((res o.1).getD 0, cf sv o.2, o.2)))).join

theorem contribRes_nil (cf : VT → ET → CT) (res : String → Option Nat) (sv : VT)
    (j : Nat) : contribRes cf res sv j [] = [] := rfl

theorem contribRes_cons (cf : VT → ET → CT) (res : String → Option Nat) (sv : VT)
    (j : Nat) (r : String × VT × List (String × ET))
    (rest : List (String × VT × List (String × ET))) :
    contribRes cf res sv j (r :: rest)
      = (if res r.1 = some j
          then r.2.2.map (fun o => ((res o.1).getD 0, cf sv o.2, o.2)) else [])
        ++ contribRes cf res sv j rest := by
  unfold contribRes
  by_cases h : res r.1 = some j
  · rw [List.filter_cons_of_pos (by simp [h]), if_pos h]
    simp [List.join]
  · rw [List.filter_cons_of_neg (by simp [h]), if_neg h]
    simp

theorem contribRes_congr {cf : VT → ET → CT} {res1 res2 : String → Option Nat}
    (h : ∀ nm, res1 nm = res2 nm) (sv : VT) (j : Nat)
    (data : List (String × VT × List (String × ET))) :
    contribRes cf res1 sv j data = contribRes cf res2 sv j data := by
  unfold contribRes
  rw [List.filter_congr (fun r _ => by rw [h r.1])]
  have hfun : (fun (r : String × VT × List (String × ET)) =>
      r.2.2.map (fun o => ((res1 o.1).getD 0, cf sv o.2, o.2)))
      = (fun r => r.2.2.map (fun o => ((res2 o.1).getD 0, cf sv o.2, o.2))) := by
    funext r
    exact List.map_congr_left (fun o _ => by rw [h o.1])
  rw [hfun]

theorem findA_nmap0 (ns : List String) (nm : String) :
    findA (nmapAcc [] 0 ns) nm = lastIdx ns nm := by
  rw [findA_nmapAcc]
  cases lastIdx ns nm with
  | some i => simp
  | none => simp [findA]

theorem isSome_of_keys_eq {κ α : Type} [DecidableEq κ] {m1 m2 : List (κ × α)}
    (hk : m1.map Prod.fst = m2.map Prod.fst) (j : κ) :
    (findA m1 j).isSome = (findA m2 j).isSome := by
  cases h2 : findA m2 j with
  | none =>
    have h1 : findA m1 j = none :=
      findA_eq_none_iff.mpr (by rw [hk]; exact findA_eq_none_iff.mp h2)
    rw [h1]
  | some l =>
    have hmem : j ∈ m2.map Prod.fst := by
      by_contra hc
      rw [findA_eq_none_iff.mpr hc] at h2
      cases h2
    cases h1 : findA m1 j with
    | none => exact absurd (findA_eq_none_iff.mp h1) (by rw [hk]; exact fun hc => hc hmem)
    | some l2 => rfl

theorem addOut_ok {cf : VT → ET → CT} {nmap : List (String × Nat)}
    {vs : List (String × VT)} {maxIdx : Nat} {vi : Nat} {sv : String × VT}
    (hsv : vs.get? vi = some sv) (hvi : vi ≤ maxIdx) :
    ∀ (outs : List (String × ET)) (edges : EdgeMap CT ET) (l0 : List (Edge CT ET)),
    findA edges vi = some l0 →
    (∀ o ∈ outs, ∃ ti, findA nmap o.1 = some ti ∧ ti ≤ maxIdx) →
    ∃ e', addOut cf nmap vs maxIdx edges vi outs = .ok e' ∧
      findA e' vi = some (l0 ++ outs.map
        (fun o => ((findA nmap o.1).getD 0, cf sv.2 o.2, o.2))) ∧
      (∀ j, j ≠ vi → findA e' j = findA edges j) ∧
      e'.map Prod.fst = edges.map Prod.fst := by
  intro outs
  induction outs with
  | nil =>
    intro edges l0 hfe _
    exact ⟨edges, rfl, by simpa using hfe, fun j _ => rfl, rfl⟩
  | cons o rest ih =>
    intro edges l0 hfe hres
    obtain ⟨tn, ed⟩ := o
    obtain ⟨ti, hti, htile⟩ := hres (tn, ed) (List.mem_cons_self _ _)
    have hupd : updateList edges vi (fun l => l ++ [(ti, cf sv.2 ed, ed)])
        = some (setList edges vi (l0 ++ [(ti, cf sv.2 ed, ed)])) := by
      unfold updateList
      rw [hfe]
    obtain ⟨e', ha, hv, hfr, hk⟩ := ih (setList edges vi (l0 ++ [(ti, cf sv.2 ed, ed)]))
      (l0 ++ [(ti, cf sv.2 ed, ed)]) (findA_setList_self _ hfe)
      (fun o ho => hres o (List.mem_cons_of_mem _ ho))
    refine ⟨e', ?_, ?_, ?_, ?_⟩
    · unfold addOut
      simp only [hti]
      rw [if_pos hvi]
      simp only [hfe]
      rw [if_pos htile]
      simp only [hsv, hupd]
      exact ha
    · rw [hv]
      simp only [List.map_cons, hti, Option.getD_some, List.append_assoc,
        List.singleton_append]
    · intro j hj
      rw [hfr j hj, findA_setList_ne _ _ _ hj]
    · rw [hk, setList_keys]

theorem addOut_unknown {cf : VT → ET → CT} {nmap : List (String × Nat)}
    {vs : List (String × VT)} {maxIdx : Nat} {vi : Nat} {sv : String × VT}
    (hsv : vs.get? vi = some sv) (hvi : vi ≤ maxIdx) :
    ∀ (outs : List (String × ET)) (edges : EdgeMap CT ET) (l0 : List (Edge CT ET)),
    findA edges vi = some l0 →
    (∀ o ∈ outs, ∀ ti, findA nmap o.1 = some ti → ti ≤ maxIdx) →
    (∃ o ∈ outs, findA nmap o.1 = none) →
    addOut cf nmap vs maxIdx edges vi outs = .error .unknownDest := by
  intro outs
  induction outs with
  | nil =>
    intro edges l0 _ _ hex
    obtain ⟨o, ho, _⟩ := hex
    simp at ho
  | cons o rest ih =>
    intro edges l0 hfe hsome hex
    obtain ⟨tn, ed⟩ := o
    cases hti : findA nmap tn with
    | none =>
      unfold addOut
      simp only [hti]
    | some ti =>
      have htile := hsome (tn, ed) (List.mem_cons_self _ _) ti hti
      have hupd : updateList edges vi (fun l => l ++ [(ti, cf sv.2 ed, ed)])
          = some (setList edges vi (l0 ++ [(ti, cf sv.2 ed, ed)])) := by
        unfold updateList
        rw [hfe]
      have hex2 : ∃ o2 ∈ rest, findA nmap o2.1 = none := by
        obtain ⟨o2, ho2, hn2⟩ := hex
        rcases List.mem_cons.mp ho2 with h1 | h1
        · rw [h1] at hn2
          simp only at hn2
          rw [hti] at hn2
          cases hn2
        · exact ⟨o2, h1, hn2⟩
      unfold addOut
      simp only [hti]
      rw [if_pos hvi]
      simp only [hfe]
      rw [if_pos htile]
      simp only [hsv, hupd]
      exact ih (setList edges vi (l0 ++ [(ti, cf sv.2 ed, ed)]))
        (l0 ++ [(ti, cf sv.2 ed, ed)]) (findA_setList_self _ hfe)
        (fun o2 ho2 => hsome o2 (List.mem_cons_of_mem _ ho2)) hex2

theorem build2_ok {cf : VT → ET → CT} {nmap : List (String × Nat)}
    {vs : List (String × VT)} {maxIdx : Nat} :
    ∀ (data2 : List (String × VT × List (String × ET))) (edges : EdgeMap CT ET),
    (∀ r ∈ data2, ∃ vi sv, findA nmap r.1 = some vi ∧ vi ≤ maxIdx ∧
      vs.get? vi = some sv ∧ (findA edges vi).isSome = true) →
    (∀ r ∈ data2, ∀ o ∈ r.2.2, ∃ ti, findA nmap o.1 = some ti ∧ ti ≤ maxIdx) →
    ∃ e', build2 cf nmap vs maxIdx edges data2 = .ok e' ∧
      (∀ j l0 sv, findA edges j = some l0 → vs.get? j = some sv →
        findA e' j = some (l0 ++ contribRes cf (findA nmap) sv.2 j data2)) ∧
      e'.map Prod.fst = edges.map Prod.fst := by
  intro data2
  induction data2 with
  | nil =>
    intro edges _ _
    refine ⟨edges, rfl, ?_, rfl⟩
    intro j l0 sv hf _
    rw [contribRes_nil, List.append_nil, hf]
  | cons r rest ih =>
    intro edges hsrc houts
    obtain ⟨name, vd, outs⟩ := r
    obtain ⟨vi, sv, hvi, hle, hsv, hsome⟩ := hsrc _ (List.mem_cons_self _ _)
    simp only at hvi
    cases hfe : findA edges vi with
    | none => rw [hfe] at hsome; cases hsome
    | some l0 =>
    obtain ⟨e1, ha, hv1, hfr1, hk1⟩ := addOut_ok hsv hle outs edges l0 hfe
      (by
        have := houts _ (List.mem_cons_self _ _)
        simpa using this)
    have hiso : ∀ j, (findA e1 j).isSome = (findA edges j).isSome :=
      fun j => isSome_of_keys_eq hk1 j
    have hsrc2 : ∀ r2 ∈ rest, ∃ vi2 sv2, findA nmap r2.1 = some vi2 ∧ vi2 ≤ maxIdx ∧
        vs.get? vi2 = some sv2 ∧ (findA e1 vi2).isSome = true := by
      intro r2 hr2
      obtain ⟨vi2, sv2, h1, h2, h3, h4⟩ := hsrc r2 (List.mem_cons_of_mem _ hr2)
      exact ⟨vi2, sv2, h1, h2, h3, by rw [hiso]; exact h4⟩
    obtain ⟨e', hb, hcontent, hk2⟩ := ih e1 hsrc2
      (fun r2 hr2 => houts r2 (List.mem_cons_of_mem _ hr2))
    refine ⟨e', ?_, ?_, by rw [hk2, hk1]⟩
    · unfold build2
      simp only [hvi]
      rw [ha]
      exact hb
    · intro j l0j svj hfj hsvj
      rw [contribRes_cons]
      simp only []
      by_cases hj : j = vi
      · rw [hj] at hfj hsvj ⊢
        have hl0 : l0j = l0 := by
          rw [hfj] at hfe
          exact Option.some.inj hfe
        have hsveq : svj = sv := by
          rw [hsvj] at hsv
          exact Option.some.inj hsv
        rw [if_pos hvi, hl0, hsveq]
        rw [hcontent vi _ sv hv1 (hsveq ▸ hsvj), List.append_assoc]
      · have hne : findA nmap name ≠ some j := by
          rw [hvi]
          intro hh
          exact hj (Option.some.inj hh).symm
        rw [if_neg hne, List.nil_append]
        have hfj1 : findA e1 j = some l0j := by
          rw [hfr1 j hj]
          exact hfj
        exact hcontent j l0j svj hfj1 hsvj

theorem build2_unknown {cf : VT → ET → CT} {nmap : List (String × Nat)}
    {vs : List (String × VT)} {maxIdx : Nat} :
    ∀ (data2 : List (String × VT × List (String × ET))) (edges : EdgeMap CT ET),
    (∀ r ∈ data2, ∃ vi sv, findA nmap r.1 = some vi ∧ vi ≤ maxIdx ∧
      vs.get? vi = some sv ∧ (findA edges vi).isSome = true) →
    (∀ r ∈ data2, ∀ o ∈ r.2.2, ∀ ti, findA nmap o.1 = some ti → ti ≤ maxIdx) →
    (∃ r ∈ data2, ∃ o ∈ r.2.2, findA nmap o.1 = none) →
    build2 cf nmap vs maxIdx edges data2 = .error .unknownDest := by
  intro data2
  induction data2 with
  | nil =>
    intro edges _ _ hex
    obtain ⟨r, hr, _⟩ := hex
    simp at hr
  | cons r rest ih =>
    intro edges hsrc houts hex
    obtain ⟨name, vd, outs⟩ := r
    obtain ⟨vi, sv, hvi, hle, hsv, hsome⟩ := hsrc _ (List.mem_cons_self _ _)
    simp only at hvi
    cases hfe : findA edges vi with
    | none => rw [hfe] at hsome; cases hsome
    | some l0 =>
    by_cases hr : ∃ o ∈ outs, findA nmap o.1 = none
    · unfold build2
      simp only [hvi]
      rw [addOut_unknown hsv hle outs edges l0 hfe
        (by
          have := houts _ (List.mem_cons_self _ _)
          simpa using this) hr]
    · have hres : ∀ o ∈ outs, ∃ ti, findA nmap o.1 = some ti ∧ ti ≤ maxIdx := by
        intro o ho
        cases hto : findA nmap o.1 with
        | none => exact absurd ⟨o, ho, hto⟩ hr
        | some ti =>
          exact ⟨ti, rfl, houts _ (List.mem_cons_self _ _) o ho ti hto⟩
      obtain ⟨e1, ha, hv1, hfr1, hk1⟩ := addOut_ok hsv hle outs edges l0 hfe hres
      have hiso : ∀ j, (findA e1 j).isSome = (findA edges j).isSome :=
        fun j => isSome_of_keys_eq hk1 j
      have hsrc2 : ∀ r2 ∈ rest, ∃ vi2 sv2, findA nmap r2.1 = some vi2 ∧
          vi2 ≤ maxIdx ∧ vs.get? vi2 = some sv2 ∧ (findA e1 vi2).isSome = true := by
        intro r2 hr2
        obtain ⟨vi2, sv2, h1, h2, h3, h4⟩ := hsrc r2 (List.mem_cons_of_mem _ hr2)
        exact ⟨vi2, sv2, h1, h2, h3, by rw [hiso]; exact h4⟩
      have hex2 : ∃ r2 ∈ rest, ∃ o ∈ r2.2.2, findA nmap o.1 = none := by
        obtain ⟨r2, hr2, o, ho, hno⟩ := hex
        rcases List.mem_cons.mp hr2 with h1 | h1
        · exfalso
          rw [h1] at ho
          exact hr ⟨o, by simpa using ho, hno⟩
        · exact ⟨r2, h1, o, ho, hno⟩
      unfold build2
      simp only [hvi]
      rw [ha]
      exact ih e1 hsrc2 (fun r2 hr2 => houts r2 (List.mem_cons_of_mem _ hr2)) hex2

theorem lastIdx_get {ns : List String} {nm : String} {i : Nat}
    (h : lastIdx ns nm = some i) : ns.get? i = some nm := by
  induction ns generalizing i with
  | nil => cases h
  | cons n r ih =>
    unfold lastIdx at h
    cases h2 : lastIdx r nm with
    | some j =>
      rw [h2] at h
      simp only [Option.some.injEq] at h
      rw [← h]
      simpa using ih h2
    | none =>
      rw [h2] at h
      by_cases hn : n = nm
      · rw [if_pos hn] at h
        cases h
        simp [hn]
      · rw [if_neg hn] at h
        cases h

theorem get?_lt_length {A : Type} {l : List A} {j : Nat} {a : A}
    (h : l.get? j = some a) : j < l.length := by
  by_contra hc
  rw [List.get?_eq_none.mpr (Nat.le_of_not_lt hc)] at h
  cases h

theorem filter_eq_singleton_of_index {A : Type} :
    ∀ (data : List A) (p : A → Bool) (j : Nat) (r : A),
    data.get? j = some r →
    (∀ i x, data.get? i = some x → (p x = true ↔ i = j)) →
    data.filter p = [r] := by
  intro data
  induction data with
  | nil => intro p j r h; cases h
  | cons a rest ih =>
    intro p j r hget hcond
    cases j with
    | zero =>
      have hr : a = r := Option.some.inj hget
      have hpa : p a = true := (hcond 0 a rfl).mpr rfl
      rw [List.filter_cons_of_pos hpa]
      have hnil : rest.filter p = [] := by
        rw [List.filter_eq_nil]
        intro x hx
        obtain ⟨n, hn⟩ := List.get?_of_mem hx
        intro hpx
        exact Nat.succ_ne_zero n ((hcond (n + 1) x (by simpa using hn)).mp hpx)
      rw [hnil, hr]
    | succ k =>
      have hpa : ¬p a = true := by
        intro hpa
        exact Nat.succ_ne_zero k ((hcond 0 a rfl).mp hpa).symm
      rw [List.filter_cons_of_neg (by simpa using hpa)]
      refine ih p k r (by simpa using hget) ?_
      intro i x hx
      have h2 := hcond (i + 1) x (by simpa using hx)
      constructor
      · intro hpx
        exact Nat.succ_injective (h2.mp hpx)
      · intro hik
        exact h2.mpr (by rw [hik])

/-- Characterization of a successful `UniGraph::new`: vertex table in
declaration order, dense adjacency keys, and each key's list given by the
records whose name resolves (to its last occurrence) there. -/
theorem new_char {maxIdx : Nat} {cf : VT → ET → CT}
    {data : List (String × VT × List (String × ET))}
    (hlen : data.length ≤ maxIdx + 1)
    (hdest : ∀ r ∈ data, ∀ o ∈ r.2.2, o.1 ∈ data.map (fun r => r.1)) :
    ∃ g, UniGraph.new maxIdx cf data = .ok g ∧
      g.vertices = data.map (fun r => (r.1, r.2.1)) ∧
      g.edges.map Prod.fst = List.range data.length ∧
      (∀ j sv, g.vertices.get? j = some sv →
        findA g.edges j = some (contribRes cf (lastIdx (data.map (fun r => r.1)))
          sv.2 j data)) := by
  obtain ⟨t, hb1⟩ := @build1_ok_of_le VT ET CT data maxIdx [] [] []
    (fun i hi => by simp only [List.length_nil, Nat.zero_add]; omega)
  obtain ⟨nm', e0, vs'⟩ := t
  obtain ⟨h1, h2, h3⟩ := build1_char hb1
  simp only [List.length_nil, List.nil_append] at h1 h2 h3
  have hres : ∀ nm, findA nm' nm = lastIdx (data.map (fun r => r.1)) nm := by
    intro nm
    rw [h1, findA_nmap0]
  have hlen' : vs'.length = data.length := by
    rw [h3, List.length_map]
  have hresolve : ∀ nm, nm ∈ data.map (fun r => r.1) →
      ∃ vi, findA nm' nm = some vi ∧ vi ≤ maxIdx ∧ vi < data.length := by
    intro nm hnm
    obtain ⟨vi, hvi⟩ := lastIdx_isSome_of_mem hnm
    have hvilt : vi < data.length := by
      have := lastIdx_lt_length hvi
      simpa using this
    exact ⟨vi, by rw [hres]; exact hvi, by omega, hvilt⟩
  have hgetvs : ∀ vi, vi < data.length → ∃ sv, vs'.get? vi = some sv := by
    intro vi hvi
    cases hg : vs'.get? vi with
    | none =>
      rw [List.get?_eq_none] at hg
      omega
    | some sv => exact ⟨sv, rfl⟩
  have hfe0 : ∀ vi, vi < data.length → findA e0 vi = some [] := by
    intro vi hvi
    rw [h2, findA_rangeEdges]
    rw [if_pos ⟨Nat.zero_le _, by omega⟩]
  have hsrc : ∀ r ∈ data, ∃ vi sv, findA nm' r.1 = some vi ∧ vi ≤ maxIdx ∧
      vs'.get? vi = some sv ∧ (findA e0 vi).isSome = true := by
    intro r hr
    obtain ⟨vi, hvi, hle, hlt⟩ := hresolve r.1 (List.mem_map_of_mem _ hr)
    obtain ⟨sv, hsv⟩ := hgetvs vi hlt
    exact ⟨vi, sv, hvi, hle, hsv, by rw [hfe0 vi hlt]; rfl⟩
  have houts : ∀ r ∈ data, ∀ o ∈ r.2.2, ∃ ti, findA nm' o.1 = some ti ∧
      ti ≤ maxIdx := by
    intro r hr o ho
    obtain ⟨ti, hti, hle, _⟩ := hresolve o.1 (hdest r hr o ho)
    exact ⟨ti, hti, hle⟩
  obtain ⟨e', hb2, hcontent, hkeys⟩ := build2_ok data e0 hsrc houts
  refine ⟨⟨vs', e'⟩, ?_, h3, ?_, ?_⟩
  · unfold UniGraph.new
    simp only [hb1]
    rw [hb2]
  · rw [hkeys, h2, List.range_eq_range', List.map_map]
    have hid : (Prod.fst ∘ fun i : Nat => (i, ([] : List (Edge CT ET)))) = id := rfl
    rw [hid, List.map_id]
  · intro j sv hsv
    have hjlt : j < data.length := by
      have h5 : j < vs'.length := get?_lt_length hsv
      omega
    have := hcontent j [] sv (hfe0 j hjlt) hsv
    rw [this, List.nil_append]
    exact congrArg some (contribRes_congr hres sv.2 j data)

theorem keysRange (n : Nat) :
    ((List.range' 0 n).map (fun i => (i, ([] : List (Edge CT ET))))).map Prod.fst
      = List.range n := by
  rw [List.map_map]
  have hid : (Prod.fst ∘ fun i : Nat => (i, ([] : List (Edge CT ET)))) = id := rfl
  rw [hid, List.map_id, List.range_eq_range']

theorem pass1_setup {maxIdx : Nat} {data : List (String × VT × List (String × ET))}
    (hlen : data.length ≤ maxIdx + 1) :
    ∃ (nm' : List (String × Nat)) (e0 : EdgeMap CT ET) (vs' : List (String × VT)),
      build1 maxIdx [] [] [] data = .ok (nm', e0, vs') ∧
      (∀ nm, findA nm' nm = lastIdx (data.map (fun r => r.1)) nm) ∧
      vs' = data.map (fun r => (r.1, r.2.1)) ∧
      e0 = (List.range' 0 data.length).map (fun i => (i, [])) ∧
      (∀ r ∈ data, ∃ vi sv, findA nm' r.1 = some vi ∧ vi ≤ maxIdx ∧
        vs'.get? vi = some sv ∧ (findA e0 vi).isSome = true) := by
  obtain ⟨t, hb1⟩ := @build1_ok_of_le VT ET CT data maxIdx [] [] []
    (fun i hi => by simp only [List.length_nil, Nat.zero_add]; omega)
  obtain ⟨nm', e0, vs'⟩ := t
  obtain ⟨h1, h2, h3⟩ := build1_char hb1
  simp only [List.length_nil, List.nil_append] at h1 h2 h3
  have hres : ∀ nm, findA nm' nm = lastIdx (data.map (fun r => r.1)) nm := by
    intro nm
    rw [h1, findA_nmap0]
  have hlen' : vs'.length = data.length := by
    rw [h3, List.length_map]
  refine ⟨nm', e0, vs', hb1, hres, h3, h2, ?_⟩
  intro r hr
  obtain ⟨vi, hvi⟩ := lastIdx_isSome_of_mem
    (List.mem_map_of_mem (fun r => r.1) hr)
  have hvilt : vi < data.length := by
    have := lastIdx_lt_length hvi
    simpa using this
  have hsv : ∃ sv, vs'.get? vi = some sv := by
    cases hg : vs'.get? vi with
    | none =>
      rw [List.get?_eq_none] at hg
      omega
    | some sv => exact ⟨sv, rfl⟩
  obtain ⟨sv, hsv⟩ := hsv
  refine ⟨vi, sv, by rw [hres]; exact hvi, by omega, hsv, ?_⟩
  rw [h2, findA_rangeEdges, if_pos ⟨Nat.zero_le _, by omega⟩]
  rfl

/-- Unfolding of `UniGraph.new` once pass one is known to succeed. -/
theorem new_eq_build2 {maxIdx : Nat} {cf : VT → ET → CT}
    {data : List (String × VT × List (String × ET))} {nm' : List (String × Nat)}
    {e0 : EdgeMap CT ET} {vs' : List (String × VT)}
    (hb1 : build1 maxIdx [] [] [] data = .ok (nm', e0, vs')) :
    UniGraph.new maxIdx cf data
      = match build2 cf nm' vs' maxIdx e0 data with
        | .error e => .error e
        | .ok e' => .ok ⟨vs', e'⟩ := by
  unfold UniGraph.new
  rw [hb1]

/-- C9: construction fails fatally when some vertex position is not
representable by the index type (the vertex count exceeds `maxIdx + 1`), and
every successfully built graph has exactly the adjacency keys `0 .. n-1`. -/
theorem builder_capacity {maxIdx : Nat} {cf : VT → ET → CT}
    {data : List (String × VT × List (String × ET))} :
    (maxIdx + 1 < data.length → UniGraph.new maxIdx cf data = .error .idxOverflow) ∧
    (∀ g, UniGraph.new maxIdx cf data = .ok g →
      g.edges.map Prod.fst = List.range data.length) := by
  constructor
  · intro h
    have hne : data ≠ [] := by
      intro hh
      subst hh
      simp at h
    unfold UniGraph.new
    rw [build1_overflow (by simp only [List.length_nil, Nat.zero_add]; omega) hne]
  · intro g h
    unfold UniGraph.new at h
    split at h
    · cases h
    · rename_i nmap e0 vs heq1
      split at h
      · cases h
      · rename_i e' heq2
        injection h with h2
        obtain ⟨_, h2e, _⟩ := build1_char heq1
        simp only [List.length_nil, List.nil_append] at h2e
        rw [← h2]
        show e'.map Prod.fst = List.range data.length
        rw [build2_keys heq2, h2e, keysRange]

/-- Three records, for the C9 witness. -/
def dataC9 : List (String × Nat × List (String × Nat)) :=
  [("A", 0, []), ("B", 0, []), ("C", 0, [])]

/-- The graph built from `dataC9` when the index type is wide enough. -/
def uC9 : UniGraph Nat Nat Nat :=
  ⟨[("A", 0), ("B", 0), ("C", 0)], [(0, []), (1, []), (2, [])]⟩

theorem builder_capacity_witness :
    UniGraph.new 1 (fun v _ => v) dataC9 = .error .idxOverflow ∧
      UniGraph.new 255 (fun v _ => v) dataC9 = .ok uC9 ∧
      uC9.edges.map Prod.fst = List.range 3 := by
  refine ⟨(builder_capacity).1 (by decide), rfl, ?_⟩
  exact (@builder_capacity Nat Nat Nat 255 (fun v _ => v) dataC9).2 uC9 rfl

/-- C8: with every vertex position representable, an edge whose target name
is not among the record names makes construction fail fatally with the
unknown-destination panic; when all target names resolve (and names are
unique, so "the source vertex" is unambiguous), construction succeeds and
each record's adjacency list holds its declared edges in order, each with
cost `cost_fn(source payload, edge payload)` stored beside the payload. -/
theorem builder_resolution {maxIdx : Nat} {cf : VT → ET → CT}
    {data : List (String × VT × List (String × ET))} :
    (data.length ≤ maxIdx + 1 →
      (∃ r ∈ data, ∃ o ∈ r.2.2, o.1 ∉ data.map (fun r => r.1)) →
      UniGraph.new maxIdx cf data = .error .unknownDest) ∧
    ((data.map (fun r => r.1)).Nodup → data.length ≤ maxIdx + 1 →
      (∀ r ∈ data, ∀ o ∈ r.2.2, o.1 ∈ data.map (fun r => r.1)) →
      ∃ g, UniGraph.new maxIdx cf data = .ok g ∧
        ∀ i r, data.get? i = some r →
          findA g.edges i = some (r.2.2.map (fun o =>
            ((lastIdx (data.map (fun r => r.1)) o.1).getD 0, cf r.2.1 o.2, o.2)))) := by
  constructor
  · intro hlen hex
    obtain ⟨nm', e0, vs', hb1, hres, h3, h2, hsrc⟩ := pass1_setup hlen
    have houts2 : ∀ r ∈ data, ∀ o ∈ r.2.2, ∀ ti, findA nm' o.1 = some ti →
        ti ≤ maxIdx := by
      intro r hr o ho ti hti
      rw [hres] at hti
      have := lastIdx_lt_length hti
      rw [List.length_map] at this
      omega
    have hex2 : ∃ r ∈ data, ∃ o ∈ r.2.2, findA nm' o.1 = none := by
      obtain ⟨r, hr, o, ho, hno⟩ := hex
      exact ⟨r, hr, o, ho, by rw [hres]; exact lastIdx_eq_none_iff.mpr hno⟩
    rw [new_eq_build2 hb1, build2_unknown data e0 hsrc houts2 hex2]
  · intro hnd hlen hall
    obtain ⟨g, hg, hv, _, hcont⟩ := @new_char VT ET CT maxIdx cf data hlen hall
    refine ⟨g, hg, ?_⟩
    intro i r hget
    have hvget : g.vertices.get? i = some (r.1, r.2.1) := by
      rw [hv, List.get?_map, hget]
      rfl
    have hc := hcont i (r.1, r.2.1) hvget
    rw [hc]
    congr 1
    have hsingle : data.filter
        (fun r' => lastIdx (data.map (fun r => r.1)) r'.1 == some i) = [r] := by
      refine filter_eq_singleton_of_index data _ i r hget ?_
      intro i' x hx
      have hxn : (data.map (fun r => r.1)).get? i' = some x.1 := by
        rw [List.get?_map, hx]
        rfl
      have hi'lt : i' < (data.map (fun r => r.1)).length := get?_lt_length hxn
      have hget2 : (data.map (fun r => r.1)).get ⟨i', hi'lt⟩ = x.1 := by
        have hq := List.get?_eq_get hi'lt
        rw [hq] at hxn
        exact Option.some.inj hxn
      have hlast : lastIdx (data.map (fun r => r.1)) x.1 = some i' := by
        rw [← hget2]
        exact lastIdx_nodup hnd i' hi'lt
      constructor
      · intro hbeq
        have := eq_of_beq hbeq
        rw [hlast] at this
        exact Option.some.inj this
      · intro hii
        rw [hlast, hii]
        exact beq_self_eq_true _
    unfold contribRes
    rw [hsingle]
    simp

/-- C10: with duplicate names, every occurrence keeps its own vertex-table
slot and its own adjacency key; a key that is not the last occurrence of its
name stays empty, while the last occurrence's list collects — in record
order — the outgoing edges of every record bearing that name, with each
source and destination resolved to the last occurrence of its name and each
cost computed from the last occurrence's vertex payload. -/
theorem builder_duplicate_names {maxIdx : Nat} {cf : VT → ET → CT}
    {data : List (String × VT × List (String × ET))}
    (hlen : data.length ≤ maxIdx + 1)
    (hdest : ∀ r ∈ data, ∀ o ∈ r.2.2, o.1 ∈ data.map (fun r => r.1)) :
    ∃ g, UniGraph.new maxIdx cf data = .ok g ∧
      g.vertices = data.map (fun r => (r.1, r.2.1)) ∧
      g.edges.map Prod.fst = List.range data.length ∧
      (∀ i r, data.get? i = some r →
        lastIdx (data.map (fun r => r.1)) r.1 ≠ some i →
        findA g.edges i = some []) ∧
      (∀ i r, data.get? i = some r →
        lastIdx (data.map (fun r => r.1)) r.1 = some i →
        findA g.edges i = some
          (((data.filter (fun r' => r'.1 == r.1)).map (fun r' =>
            r'.2.2.map (fun o => ((lastIdx (data.map (fun r => r.1)) o.1).getD 0,
              cf r.2.1 o.2, o.2)))).join)) := by
  obtain ⟨g, hg, hv, hk, hcont⟩ := @new_char VT ET CT maxIdx cf data hlen hdest
  have hvget : ∀ i r, data.get? i = some r →
      g.vertices.get? i = some (r.1, r.2.1) := by
    intro i r hget
    rw [hv, List.get?_map, hget]
    rfl
  have hnamei : ∀ i r, data.get? i = some r →
      (data.map (fun r => r.1)).get? i = some r.1 := by
    intro i r hget
    rw [List.get?_map, hget]
    rfl
  refine ⟨g, hg, hv, hk, ?_, ?_⟩
  · intro i r hget hnot
    have hc := hcont i (r.1, r.2.1) (hvget i r hget)
    rw [hc]
    have hnil : data.filter
        (fun r' => lastIdx (data.map (fun r => r.1)) r'.1 == some i) = [] := by
      rw [List.filter_eq_nil]
      intro r' hr' hbeq
      have hlast := eq_of_beq hbeq
      have hq := lastIdx_get hlast
      rw [hnamei i r hget] at hq
      have : r'.1 = r.1 := (Option.some.inj hq).symm
      rw [this] at hlast
      exact hnot hlast
    unfold contribRes
    rw [hnil]
    rfl
  · intro i r hget hlaste
    have hc := hcont i (r.1, r.2.1) (hvget i r hget)
    rw [hc]
    congr 1
    unfold contribRes
    have hfil : data.filter
        (fun r' => lastIdx (data.map (fun r => r.1)) r'.1 == some i)
        = data.filter (fun r' => r'.1 == r.1) := by
      refine List.filter_congr ?_
      intro r' _
      by_cases hname : r'.1 = r.1
      · rw [hname]
        have h1 : (lastIdx (data.map (fun r => r.1)) r.1 == some i) = true := by
          rw [hlaste]
          exact beq_self_eq_true _
        rw [h1]
        exact (beq_self_eq_true _).symm
      · have h1 : lastIdx (data.map (fun r => r.1)) r'.1 ≠ some i := by
          intro hlast
          have hq := lastIdx_get hlast
          rw [hnamei i r hget] at hq
          exact hname (Option.some.inj hq).symm
        have h2 : (lastIdx (data.map (fun r => r.1)) r'.1 == some i) = false := by
          rw [beq_eq_false_iff_ne]
          exact h1
        have h3 : (r'.1 == r.1) = false := by
          rw [beq_eq_false_iff_ne]
          exact hname
        rw [h2, h3]
    rw [hfil]

/-- Edge list with an unknown destination, for the C8 witness. -/
def dataC8bad : List (String × Nat × List (String × Nat)) := [("A", 0, [("Z", 1)])]

/-- Well-formed edge list, for the C8 witness. -/
def dataC8good : List (String × Nat × List (String × Nat)) :=
  [("A", 1, [("B", 5)]), ("B", 2, [])]

/-- The graph built from `dataC8good` with `cost = payload + edge`. -/
def uC8 : UniGraph Nat Nat Nat :=
  ⟨[("A", 1), ("B", 2)], [(0, [(1, 6, 5)]), (1, [])]⟩

theorem builder_resolution_witness :
    UniGraph.new 255 (fun v e => v + e) dataC8bad = .error .unknownDest ∧
      UniGraph.new 255 (fun v e => v + e) dataC8good = .ok uC8 ∧
      findA uC8.edges 0 = some [(1, 6, 5)] := by
  have h1 : UniGraph.new 255 (fun v e => v + e) dataC8bad = .error .unknownDest :=
    (@builder_resolution Nat Nat Nat 255 (fun v e => v + e) dataC8bad).1
      (by decide) (by decide)
  obtain ⟨g, hg, hcont⟩ := (@builder_resolution Nat Nat Nat 255
    (fun v e => v + e) dataC8good).2 (by decide) (by decide) (by decide)
  have h2 : UniGraph.new 255 (fun v e => (v + e : Nat)) dataC8good = .ok uC8 := rfl
  have hgc : g = uC8 := by
    rw [h2] at hg
    exact (Except.ok.inj hg).symm
  refine ⟨h1, h2, ?_⟩
  have h3 := hcont 0 ("A", 1, [("B", 5)]) rfl
  rw [hgc] at h3
  rw [h3]
  rfl

/-- Edge list with a duplicated vertex name, for the C10 witness. -/
def dataC10 : List (String × Nat × List (String × Nat)) :=
  [("A", 10, [("A", 5)]), ("B", 20, []), ("A", 30, [("B", 7)])]

/-- The graph built from `dataC10`: both edges land on the last `A` (index 2)
with costs computed from its payload 30. -/
def uC10 : UniGraph Nat Nat Nat :=
  ⟨[("A", 10), ("B", 20), ("A", 30)],
    [(0, []), (1, []), (2, [(2, 35, 5), (1, 37, 7)])]⟩

theorem builder_duplicate_names_witness :
    UniGraph.new 255 (fun v e => v + e) dataC10 = .ok uC10 ∧
      findA uC10.edges 0 = some [] ∧
      findA uC10.edges 2 = some [(2, 35, 5), (1, 37, 7)] := by
  obtain ⟨g, hg, hv, hk, hempty, hlast⟩ := @builder_duplicate_names Nat Nat Nat 255
    (fun v e => v + e) dataC10 (by decide) (by decide)
  have h2 : UniGraph.new 255 (fun v e => (v + e : Nat)) dataC10 = .ok uC10 := rfl
  have hgc : g = uC10 := by
    rw [h2] at hg
    exact (Except.ok.inj hg).symm
  refine ⟨h2, ?_, ?_⟩
  · have h3 := hempty 0 ("A", 10, [("A", 5)]) rfl (by decide)
    rw [hgc] at h3
    exact h3
  · have h3 := hlast 2 ("A", 30, [("B", 7)]) rfl (by decide)
    rw [hgc] at h3
    rw [h3]
    rfl

end AdventGraph
